import Mathlib

/-
  Verification of the simba discrete-event blockchain simulator against its
  natural-language specification.

  Shallow embedding conventions:
  - Rust machine integers are modelled as Nat / Int, with an explicit
    `% 2 ^ w` exactly where the source performs a wrapping cast.
  - Fallible code (panics, `todo!()`, failed `expect`/`unwrap`, assertion
    failures) is modelled with `Except`.
  - Source loops and recursion are modelled as structural recursion on an
    explicit fuel argument; the fuel is always chosen at the call site to be
    at least as large as the bound the source loop has (for example the
    64 trie levels, or the height of a chain), so that fuel exhaustion is
    reached only on inputs where the source itself would loop forever on a
    malformed structure.
  - HashMap / HashSet state is modelled with association lists and
    duplicate-free lists; all claims are stated up to membership, except
    where a claim is literally about an unchanged state.
-/

namespace Simba

/-! ## Generic map / set helpers (model of HashMap / HashSet observable behaviour) -/

/-- Lookup in an association list (model of HashMap::get). -/
def lookupKV {α : Type} (m : List (Nat × α)) (k : Nat) : Option α :=
  (m.find? (fun p => p.1 == k)).map (fun p => p.2)

/-- Insert-or-replace in an association list (model of HashMap::insert).
If the key is present every binding of that key is replaced in place,
otherwise the binding is appended. -/
def insertKV {α : Type} (m : List (Nat × α)) (k : Nat) (v : α) : List (Nat × α) :=
  if (m.find? (fun p => p.1 == k)).isSome then
    m.map (fun p => if p.1 == k then (k, v) else p)
  else
    m ++ [(k, v)]

/-- Remove a key from an association list (model of HashMap::remove). -/
def removeKV {α : Type} (m : List (Nat × α)) (k : Nat) : List (Nat × α) :=
  m.filter (fun p => p.1 != k)

/-- Insert into a duplicate-free list (model of HashSet::insert). -/
def setInsert (s : List Nat) (k : Nat) : List Nat :=
  if s.contains k then s else s ++ [k]

/-- Remove from a list (model of HashSet::remove). -/
def setRemove (s : List Nat) (k : Nat) : List Nat :=
  s.filter (fun x => x != k)

theorem mem_setInsert {s : List Nat} {k t : Nat} :
    t ∈ setInsert s k ↔ t ∈ s ∨ t = k := by
  unfold setInsert
  by_cases h : s.contains k
  · have hk : k ∈ s := by simpa using h
    rw [if_pos h]
    constructor
    · exact fun ht => Or.inl ht
    · rintro (ht | rfl)
      · exact ht
      · exact hk
  · rw [if_neg h]
    simp only [List.mem_append, List.mem_singleton]

theorem mem_setRemove {s : List Nat} {k t : Nat} :
    t ∈ setRemove s k ↔ t ∈ s ∧ t ≠ k := by
  unfold setRemove
  simp [List.mem_filter, bne_iff_ne]

theorem lookupKV_isSome_of_mem {α : Type} {m : List (Nat × α)} {k : Nat} {v : α}
    (h : (k, v) ∈ m) : (lookupKV m k).isSome := by
  unfold lookupKV
  induction m with
  | nil => cases h
  | cons p rest ih =>
    cases h with
    | head => simp [List.find?]
    | tail _ hmem =>
      by_cases hp : p.1 == k
      · simp [List.find?, hp]
      · simp only [List.find?, hp]
        exact ih hmem

end Simba

namespace CowTreeM

/-!
## Copy-on-write trie (crate cow-tree)

Embedding of src/cow-tree/src/node.rs and src/cow-tree/src/lib.rs.
Keys are byte lists (the source uses 32-byte SHA3 hashes); values are a type
parameter, instantiated with Nat in the theorems. `Rc<FrozenNode>` sharing is
modelled by plain structural containment: the source never mutates a
FrozenNode (there is no `&mut` API on it), so sharing is observably
equivalent to copying.
-/

/-- The panics, `todo!()` and assertion failures of the cow-tree crate. -/
inductive TrieErr where
  /-- `panic!("Cannot get child of leaf!")` -/
  | leafChild
  /-- `Node::take_child` on a `Reference` node: `todo!()` -/
  | todoReference
  /-- `Node::get_child` on a `Reference` node panics -/
  | refChild
  /-- an `assert!` / `assert_eq!` failed -/
  | assertFail
  /-- a Vec index out of bounds (`nodes[step]` with `step >= nodes.len()`) -/
  | indexOutOfBounds
  /-- `into_branch` called on a non-extension node -/
  | intoBranchNonExt
  /-- `set_child` on a leaf -/
  | setChildLeaf
  /-- `set_child` on an extension whose `bits` differ from the index -/
  | setChildExtMismatch
  /-- `set_child` on a reference node -/
  | setChildRef
  /-- `Option::unwrap` on `None` -/
  | unwrapNone
  /-- `panic!("Invalid state")` in `deep_clone` -/
  | invalidState
  /-- `get_value` on a non-leaf -/
  | valueNonLeaf
  /-- fuel exhaustion (models source-level divergence; never hit on well-formed trees) -/
  | fuel
deriving DecidableEq, Repr

/-- Frozen (reference-counted, immutable) trie node, from node.rs. -/
inductive FrozenNode (V : Type) where
  | leaf (v : V)
  | branch (children : List (Option (FrozenNode V)))
  | ext (bits : Nat) (child : FrozenNode V)
  | ref (child : FrozenNode V)

/-- Mutable trie node, from node.rs. A `ref` node points into a frozen tree. -/
inductive Node (V : Type) where
  | leaf (v : V)
  | branch (children : List (Option (Node V)))
  | ext (bits : Nat) (child : Option (Node V))
  | ref (frozen : FrozenNode V)

/-- `HASH_LENGTH / BITS_PER_NODE = 256 / 4` -/
def NUM_STEPS : Nat := 64

/-- `CowTree::get_index`: the 4-bit nibble of `key` used at `step`
(low nibble of byte `step / 2` for even steps, high nibble otherwise). -/
def getIndex (key : List Nat) (step : Nat) : Nat :=
  let byte := key.getD (step / 2) 0
  if step % 2 = 0 then byte % 16 else (byte / 16) % 16

/-- `Node::make_branch`: a branch with 16 empty slots. -/
def makeBranch {V : Type} : Node V := .branch (List.replicate 16 none)

def Node.isBranch {V : Type} : Node V → Bool
  | .branch _ => true
  | _ => false

def FrozenNode.isRef {V : Type} : FrozenNode V → Bool
  | .ref _ => true
  | _ => false

/-- `Node::take_child`: removes and returns the child at `idx`, also returning
the mutated node. Panics on a leaf; `todo!()` on a reference node. -/
def takeChild {V : Type} (n : Node V) (idx : Nat) :
    Except TrieErr (Option (Node V) × Node V) :=
  if 16 ≤ idx then .error .assertFail else
  match n with
  | .leaf _ => .error .leafChild
  | .branch cs => .ok (cs.getD idx none, .branch (cs.set idx none))
  | .ext bits c =>
      if bits = idx then .ok (c, .ext bits none) else .ok (none, .ext bits c)
  | .ref _ => .error .todoReference

/-- `Node::set_child`. -/
def setChild {V : Type} (n : Node V) (idx : Nat) (c : Node V) :
    Except TrieErr (Node V) :=
  if 16 ≤ idx then .error .assertFail else
  match n with
  | .leaf _ => .error .setChildLeaf
  | .branch cs => .ok (.branch (cs.set idx (some c)))
  | .ext bits _ =>
      if bits = idx then .ok (.ext bits (some c)) else .error .setChildExtMismatch
  | .ref _ => .error .setChildRef

/-- `Node::into_branch`: splits an extension into a branch holding its
(optional) child at slot `bits`; panics on every other variant. -/
def intoBranch {V : Type} (n : Node V) : Except TrieErr (Node V) :=
  match n with
  | .ext bits child => .ok (.branch ((List.replicate 16 none).set bits child))
  | _ => .error .intoBranchNonExt

/-- `Node::get_child` (read-only). -/
def nodeGetChild {V : Type} (n : Node V) (idx : Nat) :
    Except TrieErr (Option (Node V)) :=
  if 16 ≤ idx then .error .assertFail else
  match n with
  | .leaf _ => .error .leafChild
  | .branch cs => .ok (cs.getD idx none)
  | .ext bits c => .ok (if bits = idx then c else none)
  | .ref _ => .error .refChild

/-- The descent loop of `CowTree::insert` (`while step < NUM_STEPS - 2`).
`nodesRev` is the source Vec `nodes` held in reverse (head = most recently
pushed entry = `nodes[step - 1]`); the fuel equals `62 - step`. -/
def insertDescend {V : Type} (key : List Nat) :
    Nat → Nat → Node V → List (Nat × Node V) →
    Except TrieErr (Node V × List (Nat × Node V) × Nat)
  | 0, step, root, nodesRev => .ok (root, nodesRev, step)
  | fuel + 1, step, root, nodesRev =>
    let idx := getIndex key step
    if step = 0 then
      match takeChild root idx with
      | .error e => .error e
      | .ok (none, root1) => .ok (root1, nodesRev, step)
      | .ok (some c, root1) =>
          insertDescend key fuel (step + 1) root1 ((idx, c) :: nodesRev)
    else
      match nodesRev with
      | [] => .error .indexOutOfBounds
      | (pidx, pnode) :: rest =>
        match takeChild pnode idx with
        | .error e => .error e
        | .ok (none, pnode1) => .ok (root, (pidx, pnode1) :: rest, step)
        | .ok (some c, pnode1) =>
            insertDescend key fuel (step + 1) root ((idx, c) :: (pidx, pnode1) :: rest)

/-- The extension-building loop of `CowTree::insert` (`while step < NUM_STEPS - 1`).
Fuel equals `63 - step`. -/
def buildExts {V : Type} (key : List Nat) :
    Nat → Nat → List (Nat × Node V) → List (Nat × Node V) × Nat
  | 0, step, acc => (acc, step)
  | fuel + 1, step, acc =>
    let idx := getIndex key step
    let childIdx := getIndex key (step + 1)
    buildExts key fuel (step + 1) ((idx, Node.ext childIdx none) :: acc)

/-- The reassembly loop of `CowTree::insert` (`while let Some(..) = nodes.pop()`).
The input list is in reverse push order, so its head is the next pop. -/
def reassemble {V : Type} :
    List (Nat × Node V) → Option (Nat × Node V) → Except TrieErr (Option (Nat × Node V))
  | [], last => .ok last
  | (idx, node) :: rest, last =>
    match last with
    | none => reassemble rest (some (idx, node))
    | some (cidx, cnode) =>
      match setChild node cidx cnode with
      | .error e => .error e
      | .ok node1 => reassemble rest (some (idx, node1))

/-- `CowTree::insert`, including its out-of-bounds access `nodes[step]`
performed right after `assert_eq!(nodes.len(), step)`. -/
def insertT {V : Type} (root : Node V) (key : List Nat) (value : V) :
    Except TrieErr (Node V) := do
  let (root1, nodesRev, step) ← insertDescend key 62 0 root []
  -- assert_eq!(nodes.len(), step)
  if nodesRev.length ≠ step then throw .assertFail
  -- if !nodes.is_empty() && !nodes[step].1.is_branch() { .. pop/into_branch/push .. }
  let nodesRev ←
    if nodesRev.isEmpty then pure nodesRev
    else
      match nodesRev.reverse.get? step with
      | none => throw .indexOutOfBounds
      | some (_, pnode) =>
        if pnode.isBranch then pure nodesRev
        else
          match nodesRev with
          | [] => throw .unwrapNone
          | (i, n) :: rest => do
            let b ← intoBranch n
            pure ((i, b) :: rest)
  let (nodesRev, step) := buildExts key (63 - step) step nodesRev
  let nodesRev := (getIndex key step, Node.leaf value) :: nodesRev
  -- assert_eq!(nodes.len(), NUM_STEPS)
  if nodesRev.length ≠ NUM_STEPS then throw .assertFail
  match ← reassemble nodesRev none with
  | none => throw .unwrapNone
  | some (idx, node) => setChild root1 idx node

/-- `FrozenNode::get_child`, including the `assert!(c.is_reference())` inside
the `Reference` arm. The fuel bounds reference-chain unwrapping. -/
def frozenGetChild {V : Type} :
    Nat → FrozenNode V → Nat → Except TrieErr (Option (FrozenNode V))
  | 0, _, _ => .error .fuel
  | fuel + 1, n, idx =>
    if 16 ≤ idx then .error .assertFail else
    match n with
    | .leaf _ => .error .leafChild
    | .branch cs => .ok (cs.getD idx none)
    | .ext bits c => .ok (if bits = idx then some c else none)
    | .ref c => if c.isRef then frozenGetChild fuel c idx else .error .assertFail

/-- `CowTree::get_frozen` / `FrozenCowTree::get` walk: loops from `step` to
`NUM_STEPS`, then reads the value. Fuel equals `NUM_STEPS - step`. -/
def getFrozenLoop {V : Type} (key : List Nat) :
    Nat → Nat → FrozenNode V → Except TrieErr (Option V)
  | 0, _, n =>
    match n with
    | .leaf v => .ok (some v)
    | _ => .error .valueNonLeaf
  | fuel + 1, step, n =>
    let idx := getIndex key step
    match frozenGetChild 100 n idx with
    | .error e => .error e
    | .ok none => .ok none
    | .ok (some c) => getFrozenLoop key fuel (step + 1) c

/-- The loop of `CowTree::get`: dispatches to the frozen walk on a reference
node. Fuel equals `NUM_STEPS - step`. -/
def getLoop {V : Type} (key : List Nat) :
    Nat → Nat → Node V → Except TrieErr (Option V)
  | 0, _, n =>
    match n with
    | .leaf v => .ok (some v)
    | _ => .error .valueNonLeaf
  | fuel + 1, step, n =>
    match n with
    | .ref frozen => getFrozenLoop key (fuel + 1) step frozen
    | _ =>
      let idx := getIndex key step
      match nodeGetChild n idx with
      | .error e => .error e
      | .ok none => .ok none
      | .ok (some c) => getLoop key fuel (step + 1) c

/-- `CowTree::get`. -/
def getT {V : Type} (root : Node V) (key : List Nat) : Except TrieErr (Option V) :=
  getLoop key NUM_STEPS 0 root

/-- `FrozenCowTree::get`. -/
def frozenGetT {V : Type} (root : FrozenNode V) (key : List Nat) :
    Except TrieErr (Option V) :=
  getFrozenLoop key NUM_STEPS 0 root

/-- `Node::into_frozen` (the recursive body of `CowTree::freeze`), with fuel
bounding the total number of visited nodes. The sum type lets the node case
and the children-list case share one structural recursion on the fuel. -/
def intoFrozenAux {V : Type} :
    Nat → Node V ⊕ List (Option (Node V)) →
    Except TrieErr (FrozenNode V ⊕ List (Option (FrozenNode V)))
  | 0, _ => .error .fuel
  | fuel + 1, .inl n =>
    match n with
    | .leaf v => .ok (.inl (.leaf v))
    | .ref frozen => .ok (.inl (.ref frozen))
    | .ext bits child =>
      match child with
      | none => .error .unwrapNone
      | some c =>
        match intoFrozenAux fuel (.inl c) with
        | .error e => .error e
        | .ok (.inl c1) => .ok (.inl (.ext bits c1))
        | .ok (.inr _) => .error .invalidState
    | .branch cs =>
      match intoFrozenAux fuel (.inr cs) with
      | .error e => .error e
      | .ok (.inr cs1) => .ok (.inl (.branch cs1))
      | .ok (.inl _) => .error .invalidState
  | fuel + 1, .inr [] => .ok (.inr [])
  | fuel + 1, .inr (oc :: rest) =>
    match oc with
    | none =>
      match intoFrozenAux fuel (.inr rest) with
      | .error e => .error e
      | .ok (.inr rest1) => .ok (.inr (none :: rest1))
      | .ok (.inl _) => .error .invalidState
    | some c =>
      match intoFrozenAux fuel (.inl c) with
      | .error e => .error e
      | .ok (.inl c1) =>
        match intoFrozenAux fuel (.inr rest) with
        | .error e => .error e
        | .ok (.inr rest1) => .ok (.inr (some c1 :: rest1))
        | .ok (.inl _) => .error .invalidState
      | .ok (.inr _) => .error .invalidState

/-- `CowTree::freeze`. The fuel 10000 is far above the node count of every
tree built in this development. -/
def freezeT {V : Type} (root : Node V) : Except TrieErr (FrozenNode V) :=
  match intoFrozenAux 10000 (.inl root) with
  | .error e => .error e
  | .ok (.inl f) => .ok f
  | .ok (.inr _) => .error .invalidState

/-- `FrozenNode::to_reference`: unwrap one reference level. -/
def toReference {V : Type} : FrozenNode V → FrozenNode V
  | .ref other => other
  | n => n

/-- `FrozenCowTree::deep_clone`: the new root is a branch whose populated
slots are reference nodes into the frozen source; panics if the frozen root
is not a branch. -/
def deepClone {V : Type} (root : FrozenNode V) : Except TrieErr (Node V) :=
  match root with
  | .branch cs =>
      .ok (.branch (cs.map (fun oc => oc.map (fun c => Node.ref (toReference c)))))
  | _ => .error .invalidState

/-- `CowTree::default()`: an empty mutable tree. -/
def emptyTree {V : Type} : Node V := makeBranch

end CowTreeM

namespace CowTreeM

/-- 32 zero bytes: every nibble of this key is 0. -/
def cowKeyA : List Nat := List.replicate 32 0

/-- First byte 0x10: first nibble 0 (same as `cowKeyA`), second nibble 1. -/
def cowKeyB : List Nat := 16 :: List.replicate 31 0

/-- **C1** (failing-input evaluation). Inserting a key into a mutable tree,
freezing, and deep-cloning succeeds, and lookups of the original key succeed
in both the frozen tree and the clone; but inserting into the clone a key
that shares its first nibble with the frozen contents does not complete:
the descent reaches a reference node and `Node::take_child` hits `todo!()`,
so the source panics instead of lazily materializing the path. -/
theorem c1_insert_into_clone_panics :
    (insertT (V := Nat) emptyTree cowKeyA 1).isOk = true
    ∧ (do
        let t ← insertT (V := Nat) emptyTree cowKeyA 1
        let f ← freezeT t
        frozenGetT f cowKeyA) = Except.ok (some 1)
    ∧ (do
        let t ← insertT (V := Nat) emptyTree cowKeyA 1
        let f ← freezeT t
        let c ← deepClone f
        getT c cowKeyA) = Except.ok (some 1)
    ∧ (do
        let t ← insertT (V := Nat) emptyTree cowKeyA 1
        let f ← freezeT t
        let c ← deepClone f
        insertT c cowKeyB 2) = Except.error TrieErr.todoReference :=
  ⟨rfl, rfl, rfl, rfl⟩

/-- **C4** (failing-input evaluation). The first insert of a key into an
empty mutable tree succeeds, but repeating the identical insert does not
complete normally: the descent consumes 62 levels, and the source then
indexes `nodes[step]` immediately after asserting `nodes.len() == step`,
which is out of bounds — so the second insert panics instead of leaving the
tree observably unchanged. -/
theorem c4_second_insert_panics :
    (insertT (V := Nat) emptyTree cowKeyA 1).isOk = true
    ∧ (do
        let t ← insertT (V := Nat) emptyTree cowKeyA 1
        insertT t cowKeyA 1) = Except.error TrieErr.indexOutOfBounds :=
  ⟨rfl, rfl⟩

end CowTreeM

namespace Simba

/-!
## Nakamoto per-node ledger

Embedding of src/simba/src/ledger/nakamoto/mod.rs (NakamotoNodeLedger).
Block and transaction identifiers are the source u128 values, modelled as
Nat (no arithmetic is performed on them). `GENESIS_BLOCK = 0`.
The random tie-break of `pick_fork` (rand::thread_rng) is abstracted as an
oracle `choice` passed in by the caller, and `block.mark_as_seen()` /
commit-notification callbacks are returned as explicit output events.
-/

abbrev BlockId := Nat
abbrev TxnId := Nat

def GENESIS_BLOCK : BlockId := 0

/-- The fields of `NakamotoBlock` the ledger reads (identifier, parent,
uncles, height, transactions); the propagation counter lives in its own
model (see `PropBlock` below) and the frozen state in the cow-tree model. -/
structure NakBlock where
  identifier : BlockId
  parent : BlockId
  uncles : List BlockId
  height : Nat
  transactions : List TxnId
deriving DecidableEq, Repr

/-- `NakamotoNodeLedger`. `knownTransactions` keeps only the transaction ids
(the mapped `Rc<Transaction>` carries no data the embedded code reads other
than its source account, which only flows into the commit callback). -/
structure NodeLedgerS where
  blocks : List (BlockId × NakBlock)
  forks : List (BlockId × Nat)
  longestChain : BlockId × Nat
  markedAsUncle : List BlockId
  appliedTransactions : List TxnId
  mempool : List TxnId
  knownTransactions : List TxnId
deriving DecidableEq, Repr

/-- `NakamotoNodeLedger::new()`. -/
def NodeLedgerS.init : NodeLedgerS :=
  { blocks := [], forks := [], longestChain := (GENESIS_BLOCK, 0),
    markedAsUncle := [], appliedTransactions := [], mempool := [],
    knownTransactions := [] }

/-- Panics and `expect` failures of the Nakamoto ledger and node logic. -/
inductive LErr where
  /-- a `HashMap::get(..).unwrap()` on a missing block -/
  | missingBlock
  /-- `panic!("Block was never marked as uncle")` -/
  | uncleNeverMarked
  /-- `panic!("Block was marked as uncle twice")` -/
  | uncleMarkedTwice
  /-- `expect("Failed to get committed block; this should not happen")` -/
  | missingCommitBlock
  /-- `expect("block contained unknown transaction")` -/
  | unknownCommitTxn
  /-- `panic!("Committed transaction was never applied")` -/
  | commitNotApplied
  /-- `assert!(old_head.height <= new_head.height)` failed -/
  | assertFail
  /-- `assert_ne!(longest_chain.0, GENESIS_BLOCK)` failed -/
  | assertNeFail
  /-- `expect("Got transaction from self, but do not know all transactions")` -/
  | expectSelfTxns
  /-- `expect("Cannot get block without parent from ourselves")` / unwrap of received_from -/
  | expectSelfAncestors
  /-- `expect("No such block")` in the GetBlock arm -/
  | expectNoSuchBlock
  /-- `expect("No such transaction")` in the GetTransaction arm -/
  | expectNoSuchTransaction
  /-- fuel exhaustion (models source-level divergence on malformed chains) -/
  | fuel
deriving DecidableEq, Repr

/-- Undo of one old-chain block inside `update_chain_head`: every transaction
returns to the mempool and leaves `applied_transactions`. -/
def undoTxns (lg : NodeLedgerS) (txns : List TxnId) : NodeLedgerS :=
  txns.foldl
    (fun acc t =>
      { acc with mempool := setInsert acc.mempool t,
                 appliedTransactions := setRemove acc.appliedTransactions t })
    lg

/-- Undo of one old-chain block: unmark its uncles, panicking if one of them
was never marked. -/
def undoUncles (lg : NodeLedgerS) (uncles : List BlockId) : Except LErr NodeLedgerS :=
  uncles.foldlM
    (fun acc u =>
      if acc.markedAsUncle.contains u then
        Except.ok { acc with markedAsUncle := setRemove acc.markedAsUncle u }
      else
        Except.error .uncleNeverMarked)
    lg

/-- The undo body of the lockstep loop for one old-chain block. -/
def undoBlock (lg : NodeLedgerS) (b : NakBlock) : Except LErr NodeLedgerS :=
  undoUncles (undoTxns lg b.transactions) b.uncles

/-- The first walk of `update_chain_head`: descend from the new head while its
height exceeds the old height, pushing the visited blocks (in visit order)
onto the redo chain. Fuel bounds the walk. -/
def walkDownNew (blocks : List (BlockId × NakBlock)) :
    Nat → NakBlock → Nat → List NakBlock →
    Except LErr (NakBlock × List NakBlock)
  | 0, _, _, _ => .error .fuel
  | fuel + 1, n, h, chain =>
    if h < n.height then
      match lookupKV blocks n.parent with
      | none => .error .missingBlock
      | some p => walkDownNew blocks fuel p h (chain ++ [n])
    else
      .ok (n, chain)

/-- The lockstep walk of `update_chain_head`: while the two ancestors differ,
undo the old block, push the new one, and step both to their parents; stops
when the new parent is the genesis block. Fuel bounds the walk. -/
def lockstep (blocks : List (BlockId × NakBlock)) :
    Nat → NakBlock → NakBlock → NodeLedgerS → List NakBlock →
    Except LErr (NodeLedgerS × List NakBlock)
  | 0, _, _, _, _ => .error .fuel
  | fuel + 1, oldA, newA, lg, chain =>
    if newA.identifier = oldA.identifier then
      .ok (lg, chain)
    else
      match undoBlock lg oldA with
      | .error e => .error e
      | .ok lg1 =>
        let chain1 := chain ++ [newA]
        if newA.parent = GENESIS_BLOCK then
          .ok (lg1, chain1)
        else
          match lookupKV blocks newA.parent, lookupKV blocks oldA.parent with
          | some np, some op => lockstep blocks fuel op np lg1 chain1
          | _, _ => .error .missingBlock

/-- Redo of one new-chain block: mark its uncles (panicking on a double mark)
and move its transactions from the mempool to `applied_transactions`. -/
def applyBlock (lg : NodeLedgerS) (b : NakBlock) : Except LErr NodeLedgerS := do
  let lg1 ← b.uncles.foldlM
    (fun acc u =>
      if acc.markedAsUncle.contains u then
        Except.error LErr.uncleMarkedTwice
      else
        Except.ok { acc with markedAsUncle := acc.markedAsUncle ++ [u] })
    lg
  Except.ok (b.transactions.foldl
    (fun acc t =>
      { acc with mempool := setRemove acc.mempool t,
                 appliedTransactions := setInsert acc.appliedTransactions t })
    lg1)

/-- The redo loop of `update_chain_head` (`while let Some(b) = new_chain.pop_back()`):
the caller passes the redo chain already reversed into pop order. -/
def applyBlocks (lg : NodeLedgerS) (chain : List NakBlock) : Except LErr NodeLedgerS :=
  chain.foldlM applyBlock lg

/-- Walk `k` parents up from a block (the commit-delay walk). -/
def walkBackN (blocks : List (BlockId × NakBlock)) :
    Nat → NakBlock → Except LErr NakBlock
  | 0, b => .ok b
  | k + 1, b =>
    match lookupKV blocks b.parent with
    | none => .error .missingCommitBlock
    | some p => walkBackN blocks k p

/-- The commit check at the end of `update_chain_head`: when the chain grew
and is longer than the commit delay, walk back `commit_delay` blocks and
notify every transaction of the committed block, panicking if one of them is
unknown or not applied. Returns the notified transaction ids. -/
def commitPhase (lg : NodeLedgerS) (oldHead newHead : NakBlock) (cd : Nat) :
    Except LErr (List TxnId) :=
  if oldHead.height < newHead.height ∧ cd < newHead.height then do
    let cb ← walkBackN lg.blocks cd newHead
    cb.transactions.foldlM
      (fun acc t =>
        if lg.knownTransactions.contains t then
          if lg.appliedTransactions.contains t then
            Except.ok (acc ++ [t])
          else
            Except.error LErr.commitNotApplied
        else
          Except.error LErr.unknownCommitTxn)
      []
  else
    Except.ok []

/-- `NakamotoNodeLedger::update_chain_head`. Returns the updated ledger and
the transaction ids passed to the commit-notification callback. -/
def updateChainHead (lg : NodeLedgerS) (oldHead : Option NakBlock)
    (newHead : NakBlock) (cd : Nat) : Except LErr (NodeLedgerS × List TxnId) :=
  match oldHead with
  | some o =>
    if newHead.height < o.height then .error .assertFail
    else do
      let (nAnc, chain1) ← walkDownNew lg.blocks (newHead.height + 1) newHead o.height []
      let (lg1, chain2) ← lockstep lg.blocks (newHead.height + 1) o nAnc lg chain1
      let lg2 ← applyBlocks lg1 chain2.reverse
      let notes ← commitPhase lg2 o newHead cd
      Except.ok (lg2, notes)
  | none => do
    let lg2 ← applyBlocks lg [newHead]
    Except.ok (lg2, [])

/-- `NakamotoNodeLedger::pick_fork`: collect the fork heads of maximal height
(starting from the genesis placeholder) and let the random-choice oracle pick
among them. -/
def pickFork (choice : List BlockId → BlockId) (forks : List (BlockId × Nat)) :
    BlockId × Nat :=
  let acc := forks.foldl
    (fun (acc : List BlockId × Nat) p =>
      if acc.2 < p.2 then ([p.1], p.2)
      else if p.2 = acc.2 then (acc.1 ++ [p.1], acc.2)
      else acc)
    ([GENESIS_BLOCK], 0)
  (choice acc.1, acc.2)

/-- Output events of the ledger and node logic: messages, the
`mark_as_seen` call on a block, commit notifications and the
block-generator chain-head update. -/
inductive NakMsg where
  | notifyNewBlock (id : BlockId)
  | getBlock (id : BlockId)
  | sendBlock (b : NakBlock)
  | notifyNewTransaction (id : TxnId)
  | getTransaction (id : TxnId)
  | sendTransaction (id : TxnId)
deriving DecidableEq, Repr

inductive NakOut where
  | sendTo (dst : Nat) (msg : NakMsg)
  | broadcast (msg : NakMsg) (except : Option Nat)
  | markSeen (id : BlockId)
  | commitNotify (txn : TxnId)
  | generatorNewHead (id : BlockId)
deriving DecidableEq, Repr

/-- `NakamotoNodeLedger::add_new_block`. Returns the updated ledger, whether
the block was new, the new chain head (if it changed), and the output events
(`mark_as_seen`, commit notifications). -/
def ledgerAddNewBlock (choice : List BlockId → BlockId) (lg : NodeLedgerS)
    (b : NakBlock) (cd : Nat) :
    Except LErr (NodeLedgerS × Bool × Option NakBlock × List NakOut) :=
  let prev := lookupKV lg.blocks b.identifier
  let lg := { lg with blocks := insertKV lg.blocks b.identifier b }
  if prev.isSome then
    .ok (lg, false, none, [])
  else
    let lg := { lg with forks := insertKV (removeKV lg.forks b.parent) b.identifier b.height }
    let outs := [NakOut.markSeen b.identifier]
    if lg.longestChain.2 ≤ b.height then
      if lg.longestChain.1 = GENESIS_BLOCK then
        let lc := pickFork choice lg.forks
        if lc.1 = GENESIS_BLOCK then .error .assertNeFail
        else
          match lookupKV lg.blocks lc.1 with
          | none => .error .missingBlock
          | some newHead => do
            let lg := { lg with longestChain := lc }
            let (lg1, notes) ← updateChainHead lg none newHead cd
            Except.ok (lg1, true, some newHead,
              outs ++ notes.map NakOut.commitNotify)
      else
        match lookupKV lg.blocks lg.longestChain.1 with
        | none => .error .missingBlock
        | some oldHead =>
          let lc := pickFork choice lg.forks
          match lookupKV lg.blocks lc.1 with
          | none => .error .missingBlock
          | some newHead =>
            if oldHead.identifier ≠ newHead.identifier then do
              let lg := { lg with longestChain := lc }
              let (lg1, notes) ← updateChainHead lg (some oldHead) newHead cd
              Except.ok (lg1, true, some newHead,
                outs ++ notes.map NakOut.commitNotify)
            else
              Except.ok ({ lg with longestChain := lc }, true, none, outs)
    else
      .ok (lg, true, none, outs)

/-- `NakamotoNodeLedger::add_transaction`: record the transaction; if it is
new, also put it in the mempool. Returns whether it was new. -/
def ledgerAddTransaction (lg : NodeLedgerS) (txn : TxnId) : NodeLedgerS × Bool :=
  if lg.knownTransactions.contains txn then (lg, false)
  else
    ({ lg with knownTransactions := lg.knownTransactions ++ [txn],
               mempool := setInsert lg.mempool txn }, true)

end Simba

namespace Simba

/-!
## Nakamoto node logic

Embedding of src/simba/src/logic/nakamoto/node.rs (NodeState). The mutually
recursive add-block / add-transaction / pending-drain routines are a single
fueled dispatcher `nakStep`; messages sent with `node.send_to` /
`node.broadcast` and the block-generator chain-head update are returned as
output events.
-/

/-- `NodeState` of the Nakamoto node logic. -/
structure NakLogicState where
  ledger : NodeLedgerS
  requestedBlocks : List BlockId
  requestedTransactions : List TxnId
  pendingBlocksAncestors : List (BlockId × List (Nat × NakBlock))
  pendingBlocksTransactions : List (TxnId × List (Nat × NakBlock))
deriving DecidableEq, Repr

def NakLogicState.init : NakLogicState :=
  { ledger := NodeLedgerS.init, requestedBlocks := [], requestedTransactions := [],
    pendingBlocksAncestors := [], pendingBlocksTransactions := [] }

/-- `HashMap::entry(k).or_default().push(v)`. -/
def pushPending (m : List (Nat × List (Nat × NakBlock))) (k : Nat)
    (v : Nat × NakBlock) : List (Nat × List (Nat × NakBlock)) :=
  match lookupKV m k with
  | some l => insertKV m k (l ++ [v])
  | none => insertKV m k [v]

/-- The missing-transaction scan at the top of `NodeState::add_new_block`:
walks the block transactions, remembering the last missing one and sending a
GetTransaction request for each missing id not already requested. Panics
(`expect`) when a request would be needed but the block came from ourselves. -/
def scanMissingTxns (known : List TxnId) (receivedFrom : Option Nat) :
    List TxnId → Option TxnId → List TxnId → List NakOut →
    Except LErr (Option TxnId × List TxnId × List NakOut)
  | [], m, reqs, outs => .ok (m, reqs, outs)
  | t :: rest, m, reqs, outs =>
    if known.contains t then
      scanMissingTxns known receivedFrom rest m reqs outs
    else if reqs.contains t then
      scanMissingTxns known receivedFrom rest (some t) reqs outs
    else
      match receivedFrom with
      | none => .error .expectSelfTxns
      | some src =>
        scanMissingTxns known receivedFrom rest (some t) (reqs ++ [t])
          (outs ++ [.sendTo src (.getTransaction t)])

/-- The recursive entry points of the node logic. -/
inductive NakCall where
  | addBlock (b : NakBlock) (receivedFrom : Option Nat)
  | addTxn (t : TxnId) (source : Option Nat)
  | drainBlocks (items : List (Nat × NakBlock))
deriving Repr

/-- `NodeState::add_new_block` / `NodeState::add_transaction` and the drain
loops over the two pending queues, as one fueled dispatcher. Fuel only
bounds the recursion through pending-queue drains. -/
def nakStep (choice : List BlockId → BlockId) (cd : Nat) :
    Nat → NakLogicState → NakCall → Except LErr (NakLogicState × List NakOut)
  | 0, _, _ => .error .fuel
  | fuel + 1, s, .drainBlocks items =>
    match items with
    | [] => .ok (s, [])
    | (src, b) :: rest => do
      let (s1, o1) ← nakStep choice cd fuel s (.addBlock b (some src))
      let (s2, o2) ← nakStep choice cd fuel s1 (.drainBlocks rest)
      Except.ok (s2, o1 ++ o2)
  | fuel + 1, s, .addTxn t source =>
    let (lg1, isNew) := ledgerAddTransaction s.ledger t
    let s1 := { s with ledger := lg1 }
    if !isNew then
      .ok (s1, [])
    else do
      let (s2, o1) ←
        match lookupKV s1.pendingBlocksTransactions t with
        | none => Except.ok (s1, ([] : List NakOut))
        | some items =>
          nakStep choice cd fuel
            { s1 with pendingBlocksTransactions := removeKV s1.pendingBlocksTransactions t }
            (.drainBlocks items)
      Except.ok (s2, o1 ++ [.broadcast (.notifyNewTransaction t) source])
  | fuel + 1, s, .addBlock b receivedFrom =>
    match scanMissingTxns s.ledger.knownTransactions receivedFrom
        b.transactions none s.requestedTransactions [] with
    | .error e => .error e
    | .ok (some mt, reqs, outs) =>
      match receivedFrom with
      | none => .error .expectSelfTxns
      | some src =>
        .ok ({ s with requestedTransactions := reqs,
                      pendingBlocksTransactions :=
                        pushPending s.pendingBlocksTransactions mt (src, b) }, outs)
    | .ok (none, reqs, outs) =>
      let s := { s with requestedTransactions := reqs }
      let missingAnc :=
        (if b.parent != GENESIS_BLOCK && !(lookupKV s.ledger.blocks b.parent).isSome
         then [b.parent] else [])
        ++ b.uncles.filter (fun u => !(lookupKV s.ledger.blocks u).isSome)
      match missingAnc with
      | first :: _ =>
        match receivedFrom with
        | none => .error .expectSelfAncestors
        | some src =>
          let s := { s with pendingBlocksAncestors :=
                       pushPending s.pendingBlocksAncestors first (src, b) }
          let acc := missingAnc.foldl
            (fun (acc : List BlockId × List NakOut) a =>
              if acc.1.contains a then acc
              else (acc.1 ++ [a], acc.2 ++ [.sendTo src (.getBlock a)]))
            (s.requestedBlocks, [])
          .ok ({ s with requestedBlocks := acc.1 }, outs ++ acc.2)
      | [] =>
        match ledgerAddNewBlock choice s.ledger b cd with
        | .error e => .error e
        | .ok (lg1, isNew, newHead, louts) =>
          let s1 := { s with ledger := lg1 }
          if !isNew then
            .ok (s1, outs ++ louts)
          else do
            let o2 := [NakOut.broadcast (.notifyNewBlock b.identifier) receivedFrom]
            let o3 ←
              match newHead with
              | none => Except.ok ([] : List NakOut)
              | some nh =>
                if nh.parent = GENESIS_BLOCK then
                  Except.ok [NakOut.generatorNewHead nh.identifier]
                else
                  match lookupKV lg1.blocks nh.parent with
                  | none => Except.error LErr.missingBlock
                  | some _ => Except.ok [NakOut.generatorNewHead nh.identifier]
            let (s2, o4) ←
              match lookupKV s1.pendingBlocksAncestors b.identifier with
              | none => Except.ok (s1, ([] : List NakOut))
              | some items =>
                nakStep choice cd fuel
                  { s1 with pendingBlocksAncestors :=
                      removeKV s1.pendingBlocksAncestors b.identifier }
                  (.drainBlocks items)
            Except.ok (s2, outs ++ louts ++ o2 ++ o3 ++ o4)

/-- `NodeState::handle_message` of the Nakamoto node logic. -/
def nakHandleMessage (choice : List BlockId → BlockId) (cd : Nat) (fuel : Nat)
    (s : NakLogicState) (src : Nat) (msg : NakMsg) :
    Except LErr (NakLogicState × List NakOut) :=
  match msg with
  | .notifyNewBlock id =>
    if !(lookupKV s.ledger.blocks id).isSome && !s.requestedBlocks.contains id then
      .ok ({ s with requestedBlocks := s.requestedBlocks ++ [id] },
           [.sendTo src (.getBlock id)])
    else
      .ok (s, [])
  | .getBlock id =>
    match lookupKV s.ledger.blocks id with
    | none => .error .expectNoSuchBlock
    | some b => .ok (s, [.sendTo src (.sendBlock b)])
  | .sendBlock b =>
    let s1 := { s with requestedBlocks := setRemove s.requestedBlocks b.identifier }
    nakStep choice cd fuel s1 (.addBlock b (some src))
  | .getTransaction t =>
    if s.ledger.knownTransactions.contains t then
      .ok (s, [.sendTo src (.sendTransaction t)])
    else
      .error .expectNoSuchTransaction
  | .notifyNewTransaction t =>
    if !s.ledger.knownTransactions.contains t && !s.requestedTransactions.contains t then
      .ok ({ s with requestedTransactions := s.requestedTransactions ++ [t] },
           [.sendTo src (.getTransaction t)])
    else
      .ok (s, [])
  | .sendTransaction t =>
    let s1 := { s with requestedTransactions := setRemove s.requestedTransactions t }
    nakStep choice cd fuel s1 (.addTxn t (some src))

end Simba

namespace Simba

theorem scanMissingTxns_all_known (known : List TxnId) (rf : Option Nat)
    (ts : List TxnId) (m : Option TxnId) (reqs : List TxnId) (outs : List NakOut)
    (h : ∀ t ∈ ts, known.contains t) :
    scanMissingTxns known rf ts m reqs outs = .ok (m, reqs, outs) := by
  induction ts generalizing m with
  | nil => rfl
  | cons t rest ih =>
    unfold scanMissingTxns
    rw [if_pos (h t (List.mem_cons_self t rest))]
    exact ih m (fun x hx => h x (List.mem_cons_of_mem _ hx))

theorem insertKV_self {α : Type} {m : List (Nat × α)} {k : Nat} {v : α}
    (hsome : (m.find? (fun p => p.1 == k)).isSome)
    (hall : ∀ p ∈ m, p.1 = k → p.2 = v) :
    insertKV m k v = m := by
  unfold insertKV
  rw [if_pos hsome]
  have : ∀ p ∈ m, (if p.1 == k then (k, v) else p) = p := by
    intro p hp
    by_cases hk : p.1 = k
    · have hv := hall p hp hk
      simp only [hk, beq_self_eq_true, if_pos]
      cases p
      simp_all
    · simp [hk]
  rw [List.map_congr_left this]
  simp

/-- **C5.** Receiving a block the ledger already contains is a no-op at the
Nakamoto node logic: given that the stored copy is the same block and (as
established at its first receipt) all its transactions are known and its
parent and uncles are present, `NodeState::add_new_block` returns with the
state completely unchanged and emits no message, no `mark_as_seen`, no
commit notification and no rebroadcast. -/
theorem c5_duplicate_block_is_noop
    (choice : List BlockId → BlockId) (cd fuel : Nat) (s : NakLogicState)
    (b : NakBlock) (src : Nat)
    (hsome : (lookupKV s.ledger.blocks b.identifier).isSome = true)
    (hstored : ∀ p ∈ s.ledger.blocks, p.1 = b.identifier → p.2 = b)
    (htxns : ∀ t ∈ b.transactions, s.ledger.knownTransactions.contains t)
    (hpar : b.parent = GENESIS_BLOCK ∨ (lookupKV s.ledger.blocks b.parent).isSome = true)
    (hunc : ∀ u ∈ b.uncles, (lookupKV s.ledger.blocks u).isSome = true) :
    nakStep choice cd (fuel + 1) s (.addBlock b (some src)) = .ok (s, []) := by
  have hfind : (s.ledger.blocks.find? (fun p => p.1 == b.identifier)).isSome := by
    unfold lookupKV at hsome
    simpa using hsome
  have hins : insertKV s.ledger.blocks b.identifier b = s.ledger.blocks :=
    insertKV_self hfind hstored
  have hparBool :
      (b.parent != GENESIS_BLOCK && !(lookupKV s.ledger.blocks b.parent).isSome) = false := by
    rcases hpar with h | h
    · simp [h]
    · simp [h]
  have hfilter : b.uncles.filter (fun u => !(lookupKV s.ledger.blocks u).isSome) = [] := by
    apply List.filter_eq_nil_iff.mpr
    intro u hu
    simp [hunc u hu]
  have hledger :
      ledgerAddNewBlock choice s.ledger b cd
        = .ok (s.ledger, false, none, []) := by
    unfold ledgerAddNewBlock
    simp only [hsome, hins, if_true]
  unfold nakStep
  rw [scanMissingTxns_all_known _ _ _ _ _ _ htxns]
  simp only [hparBool, if_neg, Bool.false_eq_true, ite_false, hfilter, List.append_nil,
    List.nil_append, hledger, Bool.not_false]
  simp

/-- Concrete state for the C5 witness: one block with one transaction,
already applied. -/
def c5Block : NakBlock :=
  { identifier := 1, parent := GENESIS_BLOCK, uncles := [], height := 1,
    transactions := [5] }

def c5State : NakLogicState :=
  { ledger := { blocks := [(1, c5Block)], forks := [(1, 1)], longestChain := (1, 1),
                markedAsUncle := [], appliedTransactions := [5], mempool := [],
                knownTransactions := [5] },
    requestedBlocks := [], requestedTransactions := [],
    pendingBlocksAncestors := [], pendingBlocksTransactions := [] }

theorem c5_witness :
    nakStep (fun _ => GENESIS_BLOCK) 10 1 c5State (.addBlock c5Block (some 2))
      = .ok (c5State, []) :=
  c5_duplicate_block_is_noop (fun _ => GENESIS_BLOCK) 10 0 c5State c5Block 2
    (by decide) (by decide) (by decide) (Or.inl rfl) (by decide)

/-!
## Gossip node logic

Embedding of src/simba/src/logic/gossip/node.rs (GossipNodeLogic).
Only the block identifier of `GossipBlock` is read by the message handler;
the asynchronous retry task spawned on a new block notification is returned
as the `startRequestTask` event.
-/

structure GBlock where
  identifier : BlockId
deriving DecidableEq, Repr

structure GossipState where
  requestedBlocks : List BlockId
  knownBlocks : List (BlockId × GBlock)
deriving DecidableEq, Repr

inductive GossipMsg where
  | notifyNewBlock (id : BlockId)
  | getBlock (id : BlockId)
  | sendBlock (b : GBlock)
deriving DecidableEq, Repr

inductive GossipOut where
  | sendTo (dst : Nat) (msg : GossipMsg)
  | broadcast (msg : GossipMsg) (except : Option Nat)
  | markSeen (id : BlockId)
  | notifyBlockCond
  | startRequestTask (id : BlockId) (source : Nat)
deriving DecidableEq, Repr

/-- `GossipNodeLogic::add_block`. -/
def gossipAddBlock (g : GossipState) (b : GBlock) (source : Option Nat) :
    GossipState × List GossipOut :=
  ({ g with knownBlocks := insertKV g.knownBlocks b.identifier b },
   [.markSeen b.identifier, .notifyBlockCond,
    .broadcast (.notifyNewBlock b.identifier) source])

/-- `GossipNodeLogic::handle_message`. -/
def gossipHandleMessage (g : GossipState) (src : Nat) (msg : GossipMsg) :
    GossipState × List GossipOut :=
  match msg with
  | .notifyNewBlock id =>
    -- is_new = !known.contains(id) && requested.insert(id)  (short-circuit)
    if !(lookupKV g.knownBlocks id).isSome then
      if g.requestedBlocks.contains id then (g, [])
      else ({ g with requestedBlocks := g.requestedBlocks ++ [id] },
            [.startRequestTask id src])
    else
      (g, [])
  | .getBlock id =>
    match lookupKV g.knownBlocks id with
    | some b => (g, [.sendTo src (.sendBlock b)])
    | none => (g, [])
  | .sendBlock b =>
    if g.requestedBlocks.contains b.identifier then
      gossipAddBlock
        { g with requestedBlocks := setRemove g.requestedBlocks b.identifier }
        b (some src)
    else
      (g, [])

/-- **C6** (counterexample). A Nakamoto node receiving a GetBlock request for
an unknown identifier does not drop it: `get_block(..).expect("No such block")`
panics, aborting the simulation. -/
theorem c6_counterexample :
    nakHandleMessage (fun _ => GENESIS_BLOCK) 10 5 NakLogicState.init 1 (.getBlock 7)
      = .error .expectNoSuchBlock := rfl

/-- **C6** (amended). An unknown GetBlock request is dropped as recoverable in
the Gossip protocol only — the node state is unchanged and no reply is sent —
whereas in the Nakamoto protocol a GetBlock for an unknown block identifier
panics (`expect("No such block")`) and aborts the simulation. -/
theorem c6_unknown_getblock
    (g : GossipState) (src : Nat) (id : BlockId)
    (hg : lookupKV g.knownBlocks id = none)
    (choice : List BlockId → BlockId) (cd fuel : Nat) (s : NakLogicState)
    (src2 : Nat) (id2 : BlockId)
    (hn : lookupKV s.ledger.blocks id2 = none) :
    gossipHandleMessage g src (.getBlock id) = (g, [])
    ∧ nakHandleMessage choice cd fuel s src2 (.getBlock id2)
        = .error .expectNoSuchBlock := by
  constructor
  · simp only [gossipHandleMessage]
    rw [hg]
  · simp only [nakHandleMessage]
    rw [hn]

theorem c6_witness :
    gossipHandleMessage ⟨[], []⟩ 1 (.getBlock 7) = (⟨[], []⟩, [])
    ∧ nakHandleMessage (fun _ => GENESIS_BLOCK) 10 5 NakLogicState.init 1 (.getBlock 9)
        = .error .expectNoSuchBlock :=
  c6_unknown_getblock ⟨[], []⟩ 1 7 rfl (fun _ => GENESIS_BLOCK) 10 5
    NakLogicState.init 1 9 rfl

/-!
## Node creation and message delivery

Embedding of src/simba/src/node.rs: `create_node` installs the
`NodeCallback` message handler unconditionally and spawns the protocol run
task only for non-faulty nodes; `NodeCallback::handle_message` records the
incoming byte count and dispatches to the protocol logic.
-/

structure SimNodeS where
  faulty : Bool
  runTaskSpawned : Bool
  incomingBytes : Nat
  logic : NakLogicState
deriving DecidableEq, Repr

/-- `create_node`: the callback (the `logic` field together with
`deliverMessage` below) is installed for every node; the run task is spawned
only when the node is not faulty. -/
def createNodeM (faulty : Bool) (logic : NakLogicState) : SimNodeS :=
  { faulty := faulty, runTaskSpawned := !faulty, incomingBytes := 0, logic := logic }

/-- `NodeCallback::handle_message`: record incoming bytes, then dispatch to
the node logic (here instantiated with the Nakamoto logic). -/
def deliverMessage (choice : List BlockId → BlockId) (cd fuel : Nat)
    (n : SimNodeS) (src : Nat) (msgSize : Nat) (msg : NakMsg) :
    Except LErr (SimNodeS × List NakOut) :=
  let n1 := { n with incomingBytes := n.incomingBytes + msgSize }
  match nakHandleMessage choice cd fuel n1.logic src msg with
  | .error e => .error e
  | .ok (s1, outs) => .ok ({ n1 with logic := s1 }, outs)

/-- **C10.** A node created with `faulty = true` never has its protocol run
task spawned, but its message-handler callback is installed regardless:
delivering any message to it records the message size in its statistics and
processes the message exactly as the protocol handler of a correct node
would, producing the same resulting protocol state and the same replies. -/
theorem c10_faulty_node_still_handles_messages (faulty : Bool)
    (logic : NakLogicState) (choice : List BlockId → BlockId)
    (cd fuel src msgSize : Nat) (msg : NakMsg) :
    (createNodeM faulty logic).runTaskSpawned = !faulty
    ∧ (createNodeM faulty logic).faulty = faulty
    ∧ (deliverMessage choice cd fuel (createNodeM faulty logic) src msgSize msg).map
        (fun r => (r.1.incomingBytes, r.1.logic, r.2))
      = (nakHandleMessage choice cd fuel logic src msg).map
        (fun r => (msgSize, r.1, r.2)) := by
  refine ⟨rfl, rfl, ?_⟩
  unfold deliverMessage createNodeM
  cases h : nakHandleMessage choice cd fuel logic src msg with
  | error e => simp [h, Except.map]
  | ok r => cases r with
    | mk s1 outs => simp [h, Except.map]

end Simba

namespace Simba

/-!
## Block propagation counter

Embedding of `NakamotoBlock::mark_as_seen` (src/simba/src/ledger/nakamoto/block.rs):
`seen_by` is a u32 counter and `full_propagation_time` is overwritten with the
current time exactly when the incremented counter equals the block's
`num_nodes` field. That field is copied from `NakamotoGlobalLedger`'s
`num_nodes`, which `NakamotoGlobalLogic::instantiate`
(src/simba/src/logic/nakamoto/mod.rs) fills with its `num_block_generators`
parameter — and the sole call site, the `NakamotoConsensus` arm of
`SimulationInner::initialize_logic` (src/simba/src/simulation.rs), passes the
configured `max_block_size` in that positional slot and
`failures.num_correct_nodes()` in the `max_block_size` slot (both are u32, so
the swap compiles silently). So every Nakamoto block's threshold is the
configured max block size, not the correct-node count the field's own doc
comments describe. Each per-node ledger calls `mark_as_seen` at most once per
block (duplicates return early, see C5), but `create_node` installs the
message handler for faulty nodes too (see C10), so every node of the scene —
correct or faulty — can contribute one call. `runMarks` replays a sequence of
such calls with their timestamps.
-/

structure PropBlock where
  numNodes : Nat
  seenBy : Nat
  fullPropagationTime : Option Nat
deriving DecidableEq, Repr

/-- `NakamotoBlock::mark_as_seen` at virtual time `t`. -/
def markAsSeen (t : Nat) (b : PropBlock) : PropBlock :=
  let next := (b.seenBy + 1) % 2 ^ 32
  { b with seenBy := next,
           fullPropagationTime :=
             if next = b.numNodes then some t else b.fullPropagationTime }

/-- Replay a sequence of `mark_as_seen` calls (one per distinct node that
received the block, in receipt order, with their virtual timestamps). -/
def runMarks (b : PropBlock) (marks : List Nat) : PropBlock :=
  marks.foldl (fun acc t => markAsSeen t acc) b

/-- `Failures::num_correct_nodes` (src/simba/src/failures.rs). -/
def numCorrectNodes (numNodes numFaultyNodes : Nat) : Nat :=
  numNodes - numFaultyNodes

/-- The parameters of `NakamotoGlobalLogic::instantiate`
(src/simba/src/logic/nakamoto/mod.rs), in declaration order after the
block-generation configuration: `num_block_generators`, `max_block_size`,
`commit_delay`, `use_ghost`. -/
structure NakamotoGlobalParams where
  numBlockGenerators : Nat
  maxBlockSize : Nat
  commitDelay : Nat
  useGhost : Bool
deriving DecidableEq, Repr

/-- `instantiate` constructs the global ledger as
`NakamotoGlobalLedger::new(num_block_generators)`; the ledger stores that
argument as its `num_nodes` and copies it into every `NakamotoBlock` it
creates, where it is the `mark_as_seen` threshold. -/
def ledgerNumNodes (p : NakamotoGlobalParams) : Nat :=
  p.numBlockGenerators

/-- The `NakamotoConsensus` arm of `SimulationInner::initialize_logic`
(src/simba/src/simulation.rs): the positional call
`instantiate(block_generation.clone(), max_block_size, failures.num_correct_nodes(), commit_delay, use_ghost)`
puts the configured `max_block_size` into the `num_block_generators` slot and
`num_correct_nodes()` into the `max_block_size` slot. -/
def initializeNakamotoLogic (cfgMaxBlockSize nCorrect cfgCommitDelay : Nat)
    (cfgUseGhost : Bool) : NakamotoGlobalParams :=
  { numBlockGenerators := cfgMaxBlockSize
    maxBlockSize := nCorrect
    commitDelay := cfgCommitDelay
    useGhost := cfgUseGhost }

/-- A freshly created Nakamoto block under that wiring: `seen_by = 0`, no
propagation time yet, and `num_nodes` as the global ledger received it. -/
def freshPropBlock (p : NakamotoGlobalParams) : PropBlock :=
  { numNodes := ledgerNumNodes p
    seenBy := 0
    fullPropagationTime := none }

theorem runMarks_spec (marks : List Nat) (nc : Nat) :
    ∀ (k : Nat) (fp : Option Nat), k + marks.length < 2 ^ 32 →
    runMarks ⟨nc, k, fp⟩ marks
      = ⟨nc, k + marks.length,
         if k < nc ∧ nc ≤ k + marks.length then marks.get? (nc - 1 - k) else fp⟩ := by
  induction marks with
  | nil =>
    intro k fp _
    simp only [runMarks, List.foldl_nil, List.length_nil, Nat.add_zero]
    rw [if_neg (by omega)]
  | cons t rest ih =>
    intro k fp hbound
    have hlen : (t :: rest).length = rest.length + 1 := rfl
    have hk1 : (k + 1) % 2 ^ 32 = k + 1 := by
      apply Nat.mod_eq_of_lt
      simp only [hlen] at hbound
      omega
    have hstep : runMarks ⟨nc, k, fp⟩ (t :: rest)
        = runMarks ⟨nc, k + 1, if k + 1 = nc then some t else fp⟩ rest := by
      simp only [runMarks, List.foldl_cons, markAsSeen, hk1]
    rw [hstep, ih (k + 1) _ (by simp only [hlen] at hbound; omega)]
    simp only [hlen]
    congr 1
    · omega
    · by_cases hnc : nc = k + 1
      · subst hnc
        have h1 : ¬ (k + 1 < k + 1 ∧ k + 1 ≤ k + 1 + rest.length) := by omega
        rw [if_neg h1, if_pos rfl,
          if_pos (show k < k + 1 ∧ k + 1 ≤ k + (rest.length + 1) by omega)]
        have h0 : k + 1 - 1 - k = 0 := by omega
        rw [h0]
        rfl
      · have hinner : (if k + 1 = nc then some t else fp) = fp := if_neg (by omega)
        rw [hinner]
        by_cases hcond : k < nc ∧ nc ≤ k + (rest.length + 1)
        · rw [if_pos (by omega), if_pos hcond]
          have hidx : nc - 1 - k = (nc - 1 - (k + 1)) + 1 := by omega
          rw [hidx]
          rfl
        · rw [if_neg (by omega), if_neg hcond]

/-- **C7** (failing-input evaluation). The `mark_as_seen` threshold is not
`num_correct_nodes`: through the swapped positional arguments at
`initialize_logic`'s call to `instantiate`, every Nakamoto block's `num_nodes`
is the configured max block size. With `max_block_size = 100` in a scene of
two correct nodes, both nodes receive the block yet `full_propagation_time`
stays `None`; with `max_block_size = 1` in the same scene it is set at the
first of the two receipts (time 5) instead of the second (time 7); and —
independently of the swap — with one correct and one faulty node both handlers
run (see C10), so `seen_by` reaches 2 > 1 = `num_correct_nodes`. -/
theorem c7_threshold_uses_max_block_size :
    (freshPropBlock (initializeNakamotoLogic 100 (numCorrectNodes 2 0) 10 false)).numNodes = 100
    ∧ (runMarks (freshPropBlock (initializeNakamotoLogic 100 (numCorrectNodes 2 0) 10 false))
          [5, 7]).seenBy = numCorrectNodes 2 0
    ∧ (runMarks (freshPropBlock (initializeNakamotoLogic 100 (numCorrectNodes 2 0) 10 false))
          [5, 7]).fullPropagationTime = none
    ∧ (runMarks (freshPropBlock (initializeNakamotoLogic 1 (numCorrectNodes 2 0) 10 false))
          [5, 7]).fullPropagationTime = some 5
    ∧ ¬ ((runMarks (freshPropBlock (initializeNakamotoLogic 2 (numCorrectNodes 2 1) 10 false))
          [5, 7]).seenBy ≤ numCorrectNodes 2 1) := by
  refine ⟨rfl, rfl, rfl, rfl, by decide⟩

/-!
## Proof-of-work difficulty update

Embedding of the `EthereumHomestead` incremental rule of
`ProofOfWork::update_chain_head` (src/simba/src/logic/nakamoto/block_generator.rs).
`Difficulty = u64`; the i128 arithmetic is exact over Int (all intermediate
values fit in i128), with `Int.div` for the truncating i128 division (both
operands are nonnegative here) and explicit `% 2 ^ 64` for the `as Difficulty`
casts. Dividing by a target that rounds to zero decaseconds panics in the
source (i128 division by zero) and is the `divByZero` error here.
-/

def u64Max : Nat := 2 ^ 64 - 1

inductive DiffErr where
  | divByZero
deriving DecidableEq, Repr

/-- The `change` quantity `(parent_diff / 2048) * max(1 - elapsed/target, -99)`
with the target block interval rounded down to a multiple of ten seconds. -/
def homesteadChange (tbiSeconds parentDiff elapsedSeconds : Nat) : Int :=
  let target : Int := ((tbiSeconds / 10) * 10 : Nat)
  ((parentDiff / 2048 : Nat) : Int) * max (1 - Int.tdiv (elapsedSeconds : Int) target) (-99)

/-- The Homestead arm of `ProofOfWork::update_chain_head`. -/
def homesteadUpdate (tbiSeconds parentDiff elapsedSeconds : Nat) :
    Except DiffErr Nat :=
  if (tbiSeconds / 10) * 10 = 0 then .error .divByZero
  else
    let change := homesteadChange tbiSeconds parentDiff elapsedSeconds
    if change < 0 then
      let c : Nat := (-change).toNat % 2 ^ 64
      .ok (if c ≤ parentDiff then parentDiff - c else 0)
    else if 0 < change then
      let c : Nat := change.toNat % 2 ^ 64
      .ok (if u64Max ≤ parentDiff + c then u64Max - 1 else parentDiff + c)
    else
      .ok parentDiff

/-- The difficulty update as worded by the (amended) claim: exact integer
arithmetic `d + (d/2048) * max(1 - e/target, -99)` with the target rounded to
decaseconds, an increase saturating at `Difficulty::MAX - 1`, an underflowing
decrease pinned to 0 — and a zero change returning the parent difficulty
unchanged, without any clamp. -/
def homesteadSpec (tbiSeconds parentDiff elapsedSeconds : Nat) : Nat :=
  let change := homesteadChange tbiSeconds parentDiff elapsedSeconds
  if change < 0 then parentDiff - (-change).toNat
  else if 0 < change then min (parentDiff + change.toNat) (u64Max - 1)
  else parentDiff

end Simba

namespace Simba

/-- **C8** (counterexample). With parent difficulty `Difficulty::MAX` and an
elapsed interval equal to the target (so the computed change is zero), the
update returns `Difficulty::MAX` unclamped — outside the claimed range
`[0, Difficulty::MAX - 1]`. -/
theorem c8_counterexample :
    homesteadUpdate 14 u64Max 14 = .ok u64Max ∧ ¬ (u64Max ≤ u64Max - 1) := by
  constructor
  · rfl
  · decide

theorem c8_change_pos_eq (tbi d e : Nat) (hpos : 0 < homesteadChange tbi d e) :
    homesteadChange tbi d e = ((d / 2048 : Nat) : Int) := by
  have hq0 : (0 : Int) ≤ ((d / 2048 : Nat) : Int) := by positivity
  have htd0 : (0 : Int) ≤ Int.tdiv (e : Int) (((tbi / 10) * 10 : Nat) : Int) :=
    Int.tdiv_nonneg (by positivity) (by positivity)
  have hm_le : max (1 - Int.tdiv (e : Int) (((tbi / 10) * 10 : Nat) : Int)) (-99) ≤ 1 := by
    apply max_le
    · linarith
    · norm_num
  have hchg : homesteadChange tbi d e
      = ((d / 2048 : Nat) : Int)
        * max (1 - Int.tdiv (e : Int) (((tbi / 10) * 10 : Nat) : Int)) (-99) := rfl
  set m := max (1 - Int.tdiv (e : Int) (((tbi / 10) * 10 : Nat) : Int)) (-99) with hm
  have hm_pos : 0 < m := by
    by_contra hm0
    push_neg at hm0
    have : homesteadChange tbi d e ≤ 0 := by
      rw [hchg]
      exact mul_nonpos_of_nonneg_of_nonpos hq0 hm0
    omega
  have hm1 : m = 1 := by omega
  rw [hchg, hm1, mul_one]

/-- **C8** (amended). For every parent difficulty `d ≤ Difficulty::MAX` and
elapsed interval `e`, provided the target rounds to a nonzero number of
decaseconds, the Homestead update computes exactly the claimed formula
`d + (d/2048) * max(1 - e/target, -99)` in integer arithmetic, with an
increase saturating at `Difficulty::MAX - 1` and an underflowing decrease
pinned to 0; whenever the change is nonzero the result lies in
`[0, Difficulty::MAX - 1]` (a zero change returns `d` unclamped). -/
theorem c8_difficulty_update (tbi d e : Nat) (hd : d ≤ u64Max)
    (ht : 0 < (tbi / 10) * 10) :
    homesteadUpdate tbi d e = .ok (homesteadSpec tbi d e)
    ∧ (homesteadChange tbi d e ≠ 0 → homesteadSpec tbi d e ≤ u64Max - 1) := by
  have hmaxval : u64Max = 18446744073709551616 - 1 := by norm_num [u64Max]
  have htne : ¬ ((tbi / 10) * 10 = 0) := by omega
  have hq0 : (0 : Int) ≤ ((d / 2048 : Nat) : Int) := by positivity
  have hqle : d / 2048 ≤ u64Max / 2048 := Nat.div_le_div_right hd
  have hqmax : u64Max / 2048 = 9007199254740991 := by norm_num [u64Max]
  have htd0 : (0 : Int) ≤ Int.tdiv (e : Int) (((tbi / 10) * 10 : Nat) : Int) :=
    Int.tdiv_nonneg (by positivity) (by positivity)
  have hm_le : max (1 - Int.tdiv (e : Int) (((tbi / 10) * 10 : Nat) : Int)) (-99) ≤ 1 := by
    apply max_le
    · linarith
    · norm_num
  have hm_ge : (-99 : Int)
      ≤ max (1 - Int.tdiv (e : Int) (((tbi / 10) * 10 : Nat) : Int)) (-99) :=
    le_max_right _ _
  have hchg : homesteadChange tbi d e
      = ((d / 2048 : Nat) : Int)
        * max (1 - Int.tdiv (e : Int) (((tbi / 10) * 10 : Nat) : Int)) (-99) := rfl
  rcases lt_trichotomy (homesteadChange tbi d e) 0 with hneg | hzero | hpos
  · -- decreasing change
    have h2 : -(homesteadChange tbi d e) ≤ ((d / 2048 : Nat) : Int) * 99 := by
      rw [hchg]
      set m := max (1 - Int.tdiv (e : Int) (((tbi / 10) * 10 : Nat) : Int)) (-99) with hm
      have hstep : ((d / 2048 : Nat) : Int) * (-m) ≤ ((d / 2048 : Nat) : Int) * 99 :=
        mul_le_mul_of_nonneg_left (by linarith) hq0
      linarith
    have hcb : (-(homesteadChange tbi d e)).toNat < 2 ^ 64 := by omega
    have hcmod : (-(homesteadChange tbi d e)).toNat % 2 ^ 64
        = (-(homesteadChange tbi d e)).toNat := Nat.mod_eq_of_lt hcb
    have hc1 : 1 ≤ (-(homesteadChange tbi d e)).toNat := by omega
    constructor
    · simp only [homesteadUpdate, homesteadSpec]
      rw [if_neg htne, if_pos hneg, if_pos hneg, hcmod]
      congr 1
      split
      · rfl
      · omega
    · intro _
      simp only [homesteadSpec]
      rw [if_pos hneg]
      omega
  · -- zero change
    constructor
    · simp only [homesteadUpdate, homesteadSpec]
      rw [if_neg htne, hzero]
      norm_num
    · intro hne
      exact absurd hzero hne
  · -- increasing change
    have hceq := c8_change_pos_eq tbi d e hpos
    have hcnat : (homesteadChange tbi d e).toNat = d / 2048 := by
      rw [hceq]
      exact Int.toNat_natCast _
    have hcb : (homesteadChange tbi d e).toNat < 2 ^ 64 := by omega
    have hcmod : (homesteadChange tbi d e).toNat % 2 ^ 64
        = (homesteadChange tbi d e).toNat := Nat.mod_eq_of_lt hcb
    have hnneg : ¬ homesteadChange tbi d e < 0 := by omega
    constructor
    · simp only [homesteadUpdate, homesteadSpec]
      rw [if_neg htne, if_neg hnneg, if_neg hnneg, if_pos hpos, if_pos hpos, hcmod]
      congr 1
      split
      · omega
      · omega
    · intro _
      simp only [homesteadSpec]
      rw [if_neg hnneg, if_pos hpos]
      exact min_le_right _ _

theorem c8_witness :
    0 < (14 / 10) * 10
    ∧ 10000 ≤ u64Max
    ∧ homesteadUpdate 14 10000 25 = .ok (homesteadSpec 14 10000 25)
    ∧ (homesteadChange 14 10000 25 ≠ 0 → homesteadSpec 14 10000 25 ≤ u64Max - 1) := by
  have h := c8_difficulty_update 14 10000 25 (by norm_num [u64Max]) (by norm_num)
  exact ⟨by norm_num, by norm_num [u64Max], h.1, h.2⟩

end Simba

namespace Simba

/-!
## Rate limiter

Embedding of the rate-limiting tail of the driver loop in
`SimulationInner::run` (src/simba/src/simulation.rs): after each tick the
driver first stays in the pause loop while the rate limit is `Some(0)`
(waiting on the condvar but still processing commands — the simulation is not
torn down), then, for a nonzero limit `r`, computes
`min_time = virtual_elapsed_seconds / r` and sleeps `min_time - wall_elapsed`
when the wall clock advanced less. The source computes this in f64; it is
modelled here over the exact rationals (the divergence from the claim is a
factor of 1000, far beyond any f64 rounding error).
-/

inductive LimiterAction where
  /-- the `Some(0)` pause loop: wait on the condvar, keep processing commands -/
  | pause
  /-- `std::thread::sleep(min_time - real_elapsed)` -/
  | sleep (seconds : ℚ)
  /-- no rate limiting needed this iteration -/
  | proceed
deriving DecidableEq, Repr

/-- One pass of the rate-limiting block at the bottom of the driver loop. -/
def rateLimiterStep (rateLimit : Option Nat) (virtualSecs wallSecs : ℚ) :
    LimiterAction :=
  match rateLimit with
  | none => .proceed
  | some 0 => .pause
  | some (r + 1) =>
    let minTime := virtualSecs / ((r + 1 : Nat) : ℚ)
    if wallSecs < minTime then .sleep (minTime - wallSecs) else .proceed

/-- The minimum wall-clock time the claim specifies:
`virtual_elapsed / (r/1000) = 1000 * virtual_elapsed / r`. -/
def claimMinWall (r : Nat) (virtualSecs : ℚ) : ℚ :=
  (1000 * virtualSecs) / ((r : Nat) : ℚ)

/-- **C9** (failing-input evaluation). With `rate_limit = 1000` — which the
doc comment of `set_rate_limit` defines as 1.0x speed — and one second of
virtual time elapsed against zero wall time, the driver sleeps only
1/1000 s instead of the claimed `1000 * virtual / r = 1` s: the division by
1000 announced in the code's own comment is missing from the computation.
A rate limit of 0 does pause the simulation. -/
theorem c9_rate_limit_formula :
    rateLimiterStep (some 0) 5 0 = .pause
    ∧ rateLimiterStep (some 1000) 1 0 = .sleep (1 / 1000)
    ∧ claimMinWall 1000 1 = 1
    ∧ (1 : ℚ) / 1000 ≠ claimMinWall 1000 1 := by
  refine ⟨rfl, ?_, ?_, ?_⟩
  · simp only [rateLimiterStep]
    norm_num
  · simp only [claimMinWall]
    norm_num
  · simp only [claimMinWall]
    norm_num

/-!
## PBFT node logic

Embedding of src/simba/src/logic/pbft/node.rs (`NodeState::handle_message`
for PrePrepare / Prepare / Commit, with `maybe_commit` and `maybe_finalize`;
the SendTransaction arm returns before the slot dispatch and is outside the
scope of the claims). Blocks are reduced to the fields the handler reads:
identifier, slot and transactions. Broadcasts, block acceptance, client
commit notifications, `set_latest_commit` and the propose-notify wakeup are
returned as events; the fuel bounds the recursion through
pending-message drains after finalization.
-/

structure PBlock where
  identifier : Nat
  slot : Nat
  transactions : List Nat
deriving DecidableEq, Repr

/-- `RoundState`. -/
structure RoundStateS where
  block : Option PBlock
  prepared : List Nat
  committed : List Nat
deriving DecidableEq, Repr

def RoundStateS.init : RoundStateS := { block := none, prepared := [], committed := [] }

inductive PbftMsgS where
  | prePrepare (block : PBlock)
  | prepare (slot : Nat)
  | commit (slot : Nat)
deriving DecidableEq, Repr

structure PbftS where
  isLeader : Bool
  rounds : List (Nat × RoundStateS)
  pending : List (Nat × List (Nat × PbftMsgS))
  currentRound : Nat
deriving DecidableEq, Repr

/-- `PbftMessage::get_slot` (PrePrepare carries its block's slot). -/
def PbftMsgS.slot : PbftMsgS → Nat
  | .prePrepare b => b.slot
  | .prepare s => s
  | .commit s => s

inductive POut where
  | broadcast (m : PbftMsgS)
  | blockAccepted (id : Nat)
  | clientNotify (txn : Nat)
  | setLatestCommit (id : Nat)
  | proposeNotify
deriving DecidableEq, Repr

inductive PErr where
  /-- `panic!("Got pre-prepare more than once")` -/
  | duplicatePrePrepare
  /-- `rounds.get_mut(..).unwrap()` on a missing round -/
  | roundMissing
  /-- `round.block.as_ref().unwrap()` on `None` during finalization -/
  | blockMissing
  /-- fuel exhaustion of the pending-drain recursion -/
  | fuel
deriving DecidableEq, Repr

end Simba

namespace Simba

/-- `pending_messages.entry(slot).or_default().push((source, message))`. -/
def pushPendingMsg (m : List (Nat × List (Nat × PbftMsgS))) (k : Nat)
    (v : Nat × PbftMsgS) : List (Nat × List (Nat × PbftMsgS)) :=
  match lookupKV m k with
  | some l => insertKV m k (l ++ [v])
  | none => insertKV m k [v]

/-- The recursive entry points of the PBFT replica code. -/
inductive PbftCall where
  | handleMsg (source : Nat) (msg : PbftMsgS)
  | maybeCommit
  | maybeFinalize
  | drain (msgs : List (Nat × PbftMsgS))
deriving Repr

/-- `NodeState::handle_message` (PrePrepare / Prepare / Commit arms) together
with `maybe_commit`, `maybe_finalize` and the pending-message drain after
finalization, as one fueled dispatcher. `q` is the quorum size and `selfId`
the node's own object identifier. Note the source's past-round arm
(`Ordering::Greater`) only logs and then falls through to the same handling
as a current-round message — there is no early return. -/
def pbftStep (q selfId : Nat) :
    Nat → PbftS → PbftCall → Except PErr (PbftS × List POut)
  | 0, _, _ => .error .fuel
  | fuel + 1, s, .drain msgs =>
    match msgs with
    | [] => .ok (s, [])
    | (src, m) :: rest => do
      let (s1, o1) ← pbftStep q selfId fuel s (.handleMsg src m)
      let (s2, o2) ← pbftStep q selfId fuel s1 (.drain rest)
      Except.ok (s2, o1 ++ o2)
  | fuel + 1, s, .maybeCommit =>
    match lookupKV s.rounds s.currentRound with
    | none => .error .roundMissing
    | some round =>
      if q ≤ round.prepared.length ∧ round.prepared.contains selfId
          ∧ ¬ round.committed.contains selfId then
        let round1 := { round with committed := setInsert round.committed selfId }
        let s1 := { s with rounds := insertKV s.rounds s.currentRound round1 }
        do
          let (s2, o2) ← pbftStep q selfId fuel s1 .maybeFinalize
          Except.ok (s2, [POut.broadcast (.commit s.currentRound)] ++ o2)
      else
        .ok (s, [])
  | fuel + 1, s, .maybeFinalize =>
    match lookupKV s.rounds s.currentRound with
    | none => .error .roundMissing
    | some round =>
      if q ≤ round.committed.length ∧ round.committed.contains selfId then
        match round.block with
        | none => .error .blockMissing
        | some block =>
          let o1 := [POut.blockAccepted block.identifier]
            ++ block.transactions.map POut.clientNotify
          let o2 := if s.isLeader then
              [POut.setLatestCommit block.identifier, POut.proposeNotify]
            else []
          let newRound := s.currentRound + 1
          let s1 := { s with currentRound := newRound,
                             rounds := insertKV s.rounds newRound RoundStateS.init }
          match lookupKV s1.pending newRound with
          | none => .ok (s1, o1 ++ o2)
          | some msgs => do
            let s2 := { s1 with pending := removeKV s1.pending newRound }
            let (s3, o3) ← pbftStep q selfId fuel s2 (.drain msgs)
            Except.ok (s3, o1 ++ o2 ++ o3)
      else
        .ok (s, [])
  | fuel + 1, s, .handleMsg src m =>
    let slot := m.slot
    if s.currentRound < slot then
      -- future round: queue the message and return
      .ok ({ s with pending := pushPendingMsg s.pending slot (src, m) }, [])
    else
      -- current round, and ALSO past rounds (the Greater arm has no return)
      match lookupKV s.rounds slot with
      | none => .error .roundMissing
      | some round =>
        match m with
        | .prePrepare b =>
          if round.block.isSome then .error .duplicatePrePrepare
          else
            let round1 := { round with block := some b,
                                       prepared := setInsert round.prepared selfId }
            let s1 := { s with rounds := insertKV s.rounds slot round1 }
            do
              let (s2, o2) ← pbftStep q selfId fuel s1 .maybeCommit
              Except.ok (s2, [POut.broadcast (.prepare slot)] ++ o2)
        | .prepare _ =>
          let round1 := { round with prepared := setInsert round.prepared src }
          let s1 := { s with rounds := insertKV s.rounds slot round1 }
          pbftStep q selfId fuel s1 .maybeCommit
        | .commit _ =>
          let round1 := { round with committed := setInsert round.committed src }
          let s1 := { s with rounds := insertKV s.rounds slot round1 }
          pbftStep q selfId fuel s1 .maybeFinalize

/-- A completed round 1 (as left behind by a finalization with quorum 3 among
nodes 10, 11, 12) followed by a fresh current round 2. -/
def c3Round1 : RoundStateS :=
  { block := some ⟨100, 1, [9]⟩, prepared := [10, 11, 12], committed := [10, 11, 12] }

def c3State : PbftS :=
  { isLeader := false, rounds := [(1, c3Round1), (2, RoundStateS.init)],
    pending := [], currentRound := 2 }

/-- **C3** (failing-input evaluation). In a reachable replica state whose
round 1 has finalized (current round 2), a PrePrepare for past round 1 is not
dropped — the handler falls through, finds the stored block and panics with
"Got pre-prepare more than once"; a Prepare for past round 1 from a new
source is not dropped either — it mutates the finished round's prepared set.
A Prepare for future round 5 is queued, as the claim says. -/
theorem c3_past_round_not_dropped :
    pbftStep 3 10 5 c3State (.handleMsg 13 (.prePrepare ⟨200, 1, []⟩))
      = .error .duplicatePrePrepare
    ∧ pbftStep 3 10 5 c3State (.handleMsg 13 (.prepare 1))
      = .ok ({ c3State with
                 rounds := [(1, { c3Round1 with prepared := [10, 11, 12, 13] }),
                            (2, RoundStateS.init)] }, [])
    ∧ ({ c3State with
           rounds := [(1, { c3Round1 with prepared := [10, 11, 12, 13] }),
                      (2, RoundStateS.init)] } : PbftS) ≠ c3State
    ∧ pbftStep 3 10 5 c3State (.handleMsg 13 (.prepare 5))
      = .ok ({ c3State with pending := [(5, [(13, .prepare 5)])] }, []) := by
  refine ⟨rfl, rfl, by decide, rfl⟩

end Simba

namespace Simba

/-!
## Ancestor chains and the reorganization theorem (C2)

`ancBlocks` is the data-model notion of the ancestors of a chain head
(the head itself and its ancestors down to the child of the genesis block);
`chainOk` is the well-formedness every ledger maintains for stored chains:
each ancestor is stored under its own identifier, heights decrease by one,
and the height-one block has the genesis parent.
-/

/-- Ancestors of `b`, youngest first, `b` included; fuel-indexed. -/
def ancBlocks (blocks : List (BlockId × NakBlock)) : Nat → NakBlock → List NakBlock
  | 0, _ => []
  | fuel + 1, b =>
    if b.parent = GENESIS_BLOCK then [b]
    else
      match lookupKV blocks b.parent with
      | none => [b]
      | some p => b :: ancBlocks blocks fuel p

/-- Well-formedness of the chain anchored at `b`; fuel-indexed. -/
def wfChain (blocks : List (BlockId × NakBlock)) : Nat → NakBlock → Bool
  | 0, _ => false
  | fuel + 1, b =>
    (lookupKV blocks b.identifier == some b) &&
    (if b.parent = GENESIS_BLOCK then b.height == 1
     else
       match lookupKV blocks b.parent with
       | none => false
       | some p => (p.height + 1 == b.height) && wfChain blocks fuel p)

/-- `ancestors(b)` of the claim. -/
def anc (blocks : List (BlockId × NakBlock)) (b : NakBlock) : List NakBlock :=
  ancBlocks blocks b.height b

/-- A stored chain head with a well-formed ancestor chain. -/
def chainOk (blocks : List (BlockId × NakBlock)) (b : NakBlock) : Bool :=
  wfChain blocks b.height b

def idsOf (l : List NakBlock) : List Nat := l.map (fun b => b.identifier)

/-- All transactions contained in a list of blocks. -/
def txnsOf (l : List NakBlock) : List Nat := l.foldr (fun b acc => b.transactions ++ acc) []

/-- `ancestors(O) \ ancestors(N)`, as blocks. -/
def oldOnly (blocks : List (BlockId × NakBlock)) (O N : NakBlock) : List NakBlock :=
  (anc blocks O).filter (fun x => !(idsOf (anc blocks N)).contains x.identifier)

/-- `ancestors(N) \ ancestors(O)`, as blocks. -/
def newOnly (blocks : List (BlockId × NakBlock)) (O N : NakBlock) : List NakBlock :=
  (anc blocks N).filter (fun x => !(idsOf (anc blocks O)).contains x.identifier)

theorem mem_txnsOf {l : List NakBlock} {t : Nat} :
    t ∈ txnsOf l ↔ ∃ b ∈ l, t ∈ b.transactions := by
  induction l with
  | nil => simp [txnsOf]
  | cons b rest ih =>
    simp only [txnsOf, List.foldr_cons, List.mem_append, List.mem_cons]
    constructor
    · rintro (h | h)
      · exact ⟨b, Or.inl rfl, h⟩
      · obtain ⟨x, hx, ht⟩ := ih.mp h
        exact ⟨x, Or.inr hx, ht⟩
    · rintro ⟨x, hx | hx, ht⟩
      · subst hx
        exact Or.inl ht
      · exact Or.inr (ih.mpr ⟨x, hx, ht⟩)

theorem mem_idsOf {l : List NakBlock} {i : Nat} :
    i ∈ idsOf l ↔ ∃ b ∈ l, b.identifier = i := by
  simp [idsOf]

theorem contains_iff_mem {l : List Nat} {t : Nat} : l.contains t = true ↔ t ∈ l := by
  simp

theorem wf_height_pos {blocks : List (BlockId × NakBlock)} {b : NakBlock}
    (h : chainOk blocks b = true) : 1 ≤ b.height := by
  unfold chainOk at h
  cases hh : b.height with
  | zero => rw [hh] at h; exact absurd h (by simp [wfChain])
  | succ n => omega

theorem wf_lookup_self {blocks : List (BlockId × NakBlock)} {b : NakBlock}
    (h : chainOk blocks b = true) : lookupKV blocks b.identifier = some b := by
  unfold chainOk at h
  have h1 := wf_height_pos (by unfold chainOk; exact h)
  obtain ⟨n, hn⟩ : ∃ n, b.height = n + 1 := ⟨b.height - 1, by omega⟩
  rw [hn] at h
  unfold wfChain at h
  have := (Bool.and_eq_true _ _).mp h
  exact eq_of_beq this.1

theorem wf_genesis {blocks : List (BlockId × NakBlock)} {b : NakBlock}
    (h : chainOk blocks b = true) (hg : b.parent = GENESIS_BLOCK) : b.height = 1 := by
  have h1 := wf_height_pos h
  unfold chainOk at h
  obtain ⟨n, hn⟩ : ∃ n, b.height = n + 1 := ⟨b.height - 1, by omega⟩
  rw [hn] at h
  unfold wfChain at h
  have := (Bool.and_eq_true _ _).mp h
  have h2 := this.2
  rw [if_pos hg] at h2
  have := eq_of_beq h2
  omega

theorem wf_height_one_genesis {blocks : List (BlockId × NakBlock)} {b : NakBlock}
    (h : chainOk blocks b = true) (h1 : b.height = 1) : b.parent = GENESIS_BLOCK := by
  unfold chainOk at h
  rw [h1] at h
  unfold wfChain at h
  have := (Bool.and_eq_true _ _).mp h
  have h2 := this.2
  by_contra hg
  rw [if_neg hg] at h2
  cases hl : lookupKV blocks b.parent with
  | none => rw [hl] at h2; exact absurd h2 (by simp)
  | some p =>
    rw [hl] at h2
    have := (Bool.and_eq_true _ _).mp h2
    exact absurd this.2 (by simp [wfChain])

theorem wf_parent {blocks : List (BlockId × NakBlock)} {b : NakBlock}
    (h : chainOk blocks b = true) (hg : b.parent ≠ GENESIS_BLOCK) :
    ∃ p, lookupKV blocks b.parent = some p ∧ p.height + 1 = b.height
      ∧ chainOk blocks p = true := by
  have h1 := wf_height_pos h
  unfold chainOk at h
  obtain ⟨n, hn⟩ : ∃ n, b.height = n + 1 := ⟨b.height - 1, by omega⟩
  rw [hn] at h
  unfold wfChain at h
  have hsplit := (Bool.and_eq_true _ _).mp h
  have h2 := hsplit.2
  rw [if_neg hg] at h2
  cases hl : lookupKV blocks b.parent with
  | none => rw [hl] at h2; exact absurd h2 (by simp)
  | some p =>
    rw [hl] at h2
    have hp := (Bool.and_eq_true _ _).mp h2
    have hph : p.height + 1 = b.height := by
      have := eq_of_beq hp.1
      omega
    refine ⟨p, rfl, hph, ?_⟩
    unfold chainOk
    have : p.height = n := by omega
    rw [this]
    exact hp.2

theorem anc_base {blocks : List (BlockId × NakBlock)} {b : NakBlock}
    (h : chainOk blocks b = true) (hg : b.parent = GENESIS_BLOCK) :
    anc blocks b = [b] := by
  have h1 := wf_genesis h hg
  unfold anc
  rw [h1]
  unfold ancBlocks
  rw [if_pos hg]

theorem anc_decomp {blocks : List (BlockId × NakBlock)} {b p : NakBlock}
    (h : chainOk blocks b = true) (hg : b.parent ≠ GENESIS_BLOCK)
    (hl : lookupKV blocks b.parent = some p) (hph : p.height + 1 = b.height) :
    anc blocks b = b :: anc blocks p := by
  unfold anc
  have hh : b.height = p.height + 1 := hph.symm
  rw [hh]
  rw [show ancBlocks blocks (p.height + 1) b
        = (if b.parent = GENESIS_BLOCK then [b]
           else
             match lookupKV blocks b.parent with
             | none => [b]
             | some q => b :: ancBlocks blocks p.height q) from rfl]
  rw [if_neg hg, hl]

theorem anc_self_mem {blocks : List (BlockId × NakBlock)} {b : NakBlock}
    (h : chainOk blocks b = true) : b ∈ anc blocks b := by
  by_cases hg : b.parent = GENESIS_BLOCK
  · rw [anc_base h hg]; exact List.mem_singleton.mpr rfl
  · obtain ⟨p, hl, hph, _⟩ := wf_parent h hg
    rw [anc_decomp h hg hl hph]
    exact List.mem_cons_self _ _

end Simba

namespace Simba

theorem eq_of_id_eq {blocks : List (BlockId × NakBlock)} {x y : NakBlock}
    (hx : lookupKV blocks x.identifier = some x)
    (hy : lookupKV blocks y.identifier = some y)
    (hid : x.identifier = y.identifier) : x = y := by
  rw [hid, hy] at hx
  injection hx with h1
  exact h1.symm

theorem anc_mem_props {blocks : List (BlockId × NakBlock)} :
    ∀ (fuel : Nat) (b : NakBlock), b.height ≤ fuel → chainOk blocks b = true →
    ∀ x ∈ anc blocks b, chainOk blocks x = true ∧ x.height ≤ b.height := by
  intro fuel
  induction fuel with
  | zero =>
    intro b hb hwf x _
    have := wf_height_pos hwf
    omega
  | succ f ih =>
    intro b hb hwf x hx
    by_cases hg : b.parent = GENESIS_BLOCK
    · rw [anc_base hwf hg] at hx
      rw [List.mem_singleton] at hx
      subst hx
      exact ⟨hwf, le_refl _⟩
    · obtain ⟨p, hl, hph, hwfp⟩ := wf_parent hwf hg
      rw [anc_decomp hwf hg hl hph] at hx
      rcases List.mem_cons.mp hx with hx | hx
      · subst hx
        exact ⟨hwf, le_refl _⟩
      · obtain ⟨hok, hle⟩ := ih p (by omega) hwfp x hx
        exact ⟨hok, by omega⟩

theorem anc_mem_lookup {blocks : List (BlockId × NakBlock)} {b x : NakBlock}
    (hwf : chainOk blocks b = true) (hx : x ∈ anc blocks b) :
    lookupKV blocks x.identifier = some x :=
  wf_lookup_self (anc_mem_props b.height b (le_refl _) hwf x hx).1

theorem walkDownNew_spec (blocks : List (BlockId × NakBlock)) :
    ∀ (k : Nat) (n : NakBlock) (h : Nat) (acc : List NakBlock) (fuel : Nat),
      chainOk blocks n = true →
      n.height = h + k →
      1 ≤ h →
      k < fuel →
      ∃ nh, walkDownNew blocks fuel n h acc
          = .ok (nh, acc ++ (anc blocks n).take k)
        ∧ nh.height = h
        ∧ chainOk blocks nh = true
        ∧ anc blocks n = (anc blocks n).take k ++ anc blocks nh
        ∧ (∀ x ∈ (anc blocks n).take k, h < x.height) := by
  intro k
  induction k with
  | zero =>
    intro n h acc fuel hwf hh h1 hfuel
    obtain ⟨f, rfl⟩ : ∃ f, fuel = f + 1 := ⟨fuel - 1, by omega⟩
    refine ⟨n, ?_, by omega, hwf, by simp, by simp⟩
    unfold walkDownNew
    rw [if_neg (by omega)]
    simp
  | succ k ih =>
    intro n h acc fuel hwf hh h1 hfuel
    obtain ⟨f, rfl⟩ : ∃ f, fuel = f + 1 := ⟨fuel - 1, by omega⟩
    have hg : n.parent ≠ GENESIS_BLOCK := by
      intro hgen
      have := wf_genesis hwf hgen
      omega
    obtain ⟨p, hl, hph, hwfp⟩ := wf_parent hwf hg
    have hdec := anc_decomp hwf hg hl hph
    obtain ⟨nh, hrec, hnh, hwfnh, hanc, hseg⟩ :=
      ih p h (acc ++ [n]) f hwfp (by omega) h1 (by omega)
    refine ⟨nh, ?_, hnh, hwfnh, ?_, ?_⟩
    · unfold walkDownNew
      rw [if_pos (by omega)]
      simp only [hl]
      rw [hrec, hdec, List.take_succ_cons]
      simp [List.append_assoc]
    · rw [hdec, List.take_succ_cons, List.cons_append, ← hanc]
    · rw [hdec, List.take_succ_cons]
      intro x hx
      rcases List.mem_cons.mp hx with hx | hx
      · subst hx
        omega
      · exact hseg x hx

theorem undoUncles_nil (lg : NodeLedgerS) : undoUncles lg [] = .ok lg := rfl

theorem undoBlock_no_uncles {lg : NodeLedgerS} {b : NakBlock} (h : b.uncles = []) :
    undoBlock lg b = .ok (undoTxns lg b.transactions) := by
  unfold undoBlock
  rw [h]
  rfl


theorem contains_eq_false {l : List Nat} {t : Nat} (h : t ∉ l) : l.contains t = false := by
  cases hc : l.contains t
  · rfl
  · exact absurd (contains_iff_mem.mp hc) h

theorem lockstep_spec (blocks : List (BlockId × NakBlock)) :
    ∀ (fuel : Nat) (o n : NakBlock) (lg : NodeLedgerS) (chain : List NakBlock),
      chainOk blocks o = true →
      chainOk blocks n = true →
      o.height = n.height →
      o.height < fuel →
      (∀ x ∈ anc blocks o, x.uncles = []) →
      lockstep blocks fuel o n lg chain
        = .ok (((anc blocks o).filter
                  (fun x => !(idsOf (anc blocks n)).contains x.identifier)).foldl
                 (fun acc x => undoTxns acc x.transactions) lg,
               chain ++ (anc blocks n).filter
                  (fun x => !(idsOf (anc blocks o)).contains x.identifier)) := by
  intro fuel
  induction fuel with
  | zero =>
    intro o n lg chain _ _ _ hf _
    omega
  | succ f ih =>
    intro o n lg chain hwfo hwfn hh hf hunc
    by_cases hid : n.identifier = o.identifier
    · have hoe : n = o := eq_of_id_eq (wf_lookup_self hwfn) (wf_lookup_self hwfo) hid
      subst hoe
      have hDo : (anc blocks n).filter
          (fun x => !(idsOf (anc blocks n)).contains x.identifier) = [] := by
        apply List.filter_eq_nil_iff.mpr
        intro x hx
        have hmem : x.identifier ∈ idsOf (anc blocks n) := mem_idsOf.mpr ⟨x, hx, rfl⟩
        rw [contains_iff_mem.mpr hmem]
        simp
      rw [hDo]
      unfold lockstep
      rw [if_pos rfl]
      simp
    · have hundo : undoBlock lg o = .ok (undoTxns lg o.transactions) :=
        undoBlock_no_uncles (hunc o (anc_self_mem hwfo))
      by_cases hgn : n.parent = GENESIS_BLOCK
      · -- the common ancestor is the genesis block
        have hn1 : n.height = 1 := wf_genesis hwfn hgn
        have ho1 : o.height = 1 := by omega
        have hgo : o.parent = GENESIS_BLOCK := wf_height_one_genesis hwfo ho1
        have hao : anc blocks o = [o] := anc_base hwfo hgo
        have han : anc blocks n = [n] := anc_base hwfn hgn
        have hcon : (idsOf (anc blocks n)).contains o.identifier = false := by
          apply contains_eq_false
          rw [han]
          intro hmem
          obtain ⟨y, hy, hyid⟩ := mem_idsOf.mp hmem
          rw [List.mem_singleton] at hy
          subst hy
          exact hid hyid
        have hcon2 : (idsOf (anc blocks o)).contains n.identifier = false := by
          apply contains_eq_false
          rw [hao]
          intro hmem
          obtain ⟨y, hy, hyid⟩ := mem_idsOf.mp hmem
          rw [List.mem_singleton] at hy
          subst hy
          exact hid hyid.symm
        have hDo : (anc blocks o).filter
            (fun x => !(idsOf (anc blocks n)).contains x.identifier) = [o] := by
          rw [hao, List.filter_cons_of_pos (by rw [hcon]; rfl), List.filter_nil]
        have hDn : (anc blocks n).filter
            (fun x => !(idsOf (anc blocks o)).contains x.identifier) = [n] := by
          rw [han, List.filter_cons_of_pos (by rw [hcon2]; rfl), List.filter_nil]
        rw [hDo, hDn]
        unfold lockstep
        rw [if_neg hid, hundo]
        simp only [hgn, if_pos]
        rfl
      · -- walk one level down on both chains
        have hn2 : 2 ≤ n.height := by
          have h1 := wf_height_pos hwfn
          rcases Nat.lt_or_ge n.height 2 with h2 | h2
          · have : n.height = 1 := by omega
            exact absurd (wf_height_one_genesis hwfn this) hgn
          · exact h2
        have hgo : o.parent ≠ GENESIS_BLOCK := by
          intro hg
          have := wf_genesis hwfo hg
          omega
        obtain ⟨np, hlnp, hphn, hwfnp⟩ := wf_parent hwfn hgn
        obtain ⟨op, hlop, hpho, hwfop⟩ := wf_parent hwfo hgo
        have hdn := anc_decomp hwfn hgn hlnp hphn
        have hdo := anc_decomp hwfo hgo hlop hpho
        have huncop : ∀ x ∈ anc blocks op, x.uncles = [] := by
          intro x hx
          exact hunc x (by rw [hdo]; exact List.mem_cons_of_mem _ hx)
        have hcono : (idsOf (anc blocks n)).contains o.identifier = false := by
          apply contains_eq_false
          intro hmem
          obtain ⟨y, hy, hyid⟩ := mem_idsOf.mp hmem
          have hyo : y = o := eq_of_id_eq (anc_mem_lookup hwfn hy) (wf_lookup_self hwfo) hyid
          subst hyo
          rw [hdn] at hy
          rcases List.mem_cons.mp hy with hy | hy
          · exact hid (congrArg NakBlock.identifier hy).symm
          · have := (anc_mem_props np.height np (le_refl _) hwfnp y hy).2
            omega
        have hconn : (idsOf (anc blocks o)).contains n.identifier = false := by
          apply contains_eq_false
          intro hmem
          obtain ⟨y, hy, hyid⟩ := mem_idsOf.mp hmem
          have hyn : y = n := eq_of_id_eq (anc_mem_lookup hwfo hy) (wf_lookup_self hwfn) hyid
          subst hyn
          rw [hdo] at hy
          rcases List.mem_cons.mp hy with hy | hy
          · exact hid (congrArg NakBlock.identifier hy)
          · have := (anc_mem_props op.height op (le_refl _) hwfop y hy).2
            omega
        have hcongN : ∀ x ∈ anc blocks op,
            (!(idsOf (anc blocks n)).contains x.identifier)
              = (!(idsOf (anc blocks np)).contains x.identifier) := by
          intro x hx
          have hxh := (anc_mem_props op.height op (le_refl _) hwfop x hx).2
          have hxn : x.identifier ≠ n.identifier := by
            intro he
            have hxe : x = n := eq_of_id_eq (anc_mem_lookup hwfop hx) (wf_lookup_self hwfn) he
            subst hxe
            omega
          cases hc : (idsOf (anc blocks np)).contains x.identifier
          · have hnone : x.identifier ∉ idsOf (anc blocks n) := by
              rw [hdn]
              intro hmem
              obtain ⟨y, hy, hyid⟩ := mem_idsOf.mp hmem
              rcases List.mem_cons.mp hy with hy | hy
              · subst hy
                exact hxn hyid.symm
              · have : x.identifier ∈ idsOf (anc blocks np) := mem_idsOf.mpr ⟨y, hy, hyid⟩
                rw [← contains_iff_mem] at this
                rw [hc] at this
                cases this
            rw [contains_eq_false hnone]
          · have hmem : x.identifier ∈ idsOf (anc blocks np) := contains_iff_mem.mp hc
            have hmem2 : x.identifier ∈ idsOf (anc blocks n) := by
              rw [hdn]
              obtain ⟨y, hy, hyid⟩ := mem_idsOf.mp hmem
              exact mem_idsOf.mpr ⟨y, List.mem_cons_of_mem _ hy, hyid⟩
            rw [contains_iff_mem.mpr hmem2]
        have hcongO : ∀ x ∈ anc blocks np,
            (!(idsOf (anc blocks o)).contains x.identifier)
              = (!(idsOf (anc blocks op)).contains x.identifier) := by
          intro x hx
          have hxh := (anc_mem_props np.height np (le_refl _) hwfnp x hx).2
          have hxo : x.identifier ≠ o.identifier := by
            intro he
            have hxe : x = o := eq_of_id_eq (anc_mem_lookup hwfnp hx) (wf_lookup_self hwfo) he
            subst hxe
            omega
          cases hc : (idsOf (anc blocks op)).contains x.identifier
          · have hnone : x.identifier ∉ idsOf (anc blocks o) := by
              rw [hdo]
              intro hmem
              obtain ⟨y, hy, hyid⟩ := mem_idsOf.mp hmem
              rcases List.mem_cons.mp hy with hy | hy
              · subst hy
                exact hxo hyid.symm
              · have : x.identifier ∈ idsOf (anc blocks op) := mem_idsOf.mpr ⟨y, hy, hyid⟩
                rw [← contains_iff_mem] at this
                rw [hc] at this
                cases this
            rw [contains_eq_false hnone]
          · have hmem : x.identifier ∈ idsOf (anc blocks op) := contains_iff_mem.mp hc
            have hmem2 : x.identifier ∈ idsOf (anc blocks o) := by
              rw [hdo]
              obtain ⟨y, hy, hyid⟩ := mem_idsOf.mp hmem
              exact mem_idsOf.mpr ⟨y, List.mem_cons_of_mem _ hy, hyid⟩
            rw [contains_iff_mem.mpr hmem2]
        have hDo2 : (anc blocks o).filter
              (fun x => !(idsOf (anc blocks n)).contains x.identifier)
            = o :: (anc blocks op).filter
                (fun x => !(idsOf (anc blocks np)).contains x.identifier) := by
          rw [hdo, List.filter_cons_of_pos (by rw [hcono]; rfl)]
          congr 1
          exact List.filter_congr hcongN
        have hDn2 : (anc blocks n).filter
              (fun x => !(idsOf (anc blocks o)).contains x.identifier)
            = n :: (anc blocks np).filter
                (fun x => !(idsOf (anc blocks op)).contains x.identifier) := by
          rw [hdn, List.filter_cons_of_pos (by rw [hconn]; rfl)]
          congr 1
          exact List.filter_congr hcongO
        rw [hDo2, hDn2]
        unfold lockstep
        rw [if_neg hid, hundo]
        simp only [if_neg hgn, hlnp, hlop]
        rw [ih op np (undoTxns lg o.transactions) (chain ++ [n]) hwfop hwfnp
          (by omega) (by omega) huncop]
        simp [List.append_assoc]

end Simba

namespace Simba

theorem bindOk {ε α β : Type} (a : α) (f : α → Except ε β) :
    (Except.ok a : Except ε α) >>= f = f a := rfl

theorem undoTxns_mem_mempool :
    ∀ (ts : List TxnId) (lg : NodeLedgerS) (t : TxnId),
      t ∈ (undoTxns lg ts).mempool ↔ t ∈ lg.mempool ∨ t ∈ ts := by
  intro ts
  induction ts with
  | nil => intro lg t; simp [undoTxns]
  | cons x rest ih =>
    intro lg t
    rw [show undoTxns lg (x :: rest)
        = undoTxns { lg with mempool := setInsert lg.mempool x,
                             appliedTransactions := setRemove lg.appliedTransactions x } rest
      from rfl]
    rw [ih]
    simp only [mem_setInsert, List.mem_cons]
    tauto

theorem undoTxns_mem_applied :
    ∀ (ts : List TxnId) (lg : NodeLedgerS) (t : TxnId),
      t ∈ (undoTxns lg ts).appliedTransactions
        ↔ t ∈ lg.appliedTransactions ∧ t ∉ ts := by
  intro ts
  induction ts with
  | nil => intro lg t; simp [undoTxns]
  | cons x rest ih =>
    intro lg t
    rw [show undoTxns lg (x :: rest)
        = undoTxns { lg with mempool := setInsert lg.mempool x,
                             appliedTransactions := setRemove lg.appliedTransactions x } rest
      from rfl]
    rw [ih]
    simp only [mem_setRemove, List.mem_cons]
    tauto

theorem undoTxns_blocks :
    ∀ (ts : List TxnId) (lg : NodeLedgerS), (undoTxns lg ts).blocks = lg.blocks := by
  intro ts
  induction ts with
  | nil => intro lg; rfl
  | cons x rest ih => intro lg; exact ih _

theorem undoTxns_known :
    ∀ (ts : List TxnId) (lg : NodeLedgerS),
      (undoTxns lg ts).knownTransactions = lg.knownTransactions := by
  intro ts
  induction ts with
  | nil => intro lg; rfl
  | cons x rest ih => intro lg; exact ih _

theorem undoFold_mem_mempool :
    ∀ (l : List NakBlock) (lg : NodeLedgerS) (t : TxnId),
      t ∈ ((l.foldl (fun acc x => undoTxns acc x.transactions) lg)).mempool
        ↔ t ∈ lg.mempool ∨ t ∈ txnsOf l := by
  intro l
  induction l with
  | nil => intro lg t; simp [txnsOf]
  | cons b rest ih =>
    intro lg t
    rw [List.foldl_cons, ih]
    rw [undoTxns_mem_mempool]
    rw [show txnsOf (b :: rest) = b.transactions ++ txnsOf rest from rfl]
    simp only [List.mem_append]
    tauto

theorem undoFold_mem_applied :
    ∀ (l : List NakBlock) (lg : NodeLedgerS) (t : TxnId),
      t ∈ ((l.foldl (fun acc x => undoTxns acc x.transactions) lg)).appliedTransactions
        ↔ t ∈ lg.appliedTransactions ∧ t ∉ txnsOf l := by
  intro l
  induction l with
  | nil => intro lg t; simp [txnsOf]
  | cons b rest ih =>
    intro lg t
    rw [List.foldl_cons, ih]
    rw [undoTxns_mem_applied]
    rw [show txnsOf (b :: rest) = b.transactions ++ txnsOf rest from rfl]
    simp only [List.mem_append]
    tauto

theorem undoFold_blocks :
    ∀ (l : List NakBlock) (lg : NodeLedgerS),
      ((l.foldl (fun acc x => undoTxns acc x.transactions) lg)).blocks = lg.blocks := by
  intro l
  induction l with
  | nil => intro lg; rfl
  | cons b rest ih =>
    intro lg
    rw [List.foldl_cons, ih, undoTxns_blocks]

theorem undoFold_known :
    ∀ (l : List NakBlock) (lg : NodeLedgerS),
      ((l.foldl (fun acc x => undoTxns acc x.transactions) lg)).knownTransactions
        = lg.knownTransactions := by
  intro l
  induction l with
  | nil => intro lg; rfl
  | cons b rest ih =>
    intro lg
    rw [List.foldl_cons, ih, undoTxns_known]

/-- The per-transaction body of the redo loop. -/
def applyTxnStep (acc : NodeLedgerS) (t : TxnId) : NodeLedgerS :=
  { acc with mempool := setRemove acc.mempool t,
             appliedTransactions := setInsert acc.appliedTransactions t }

theorem applyBlock_no_uncles {lg : NodeLedgerS} {b : NakBlock} (h : b.uncles = []) :
    applyBlock lg b = .ok (b.transactions.foldl applyTxnStep lg) := by
  unfold applyBlock
  rw [h]
  rfl

theorem applyTxns_mem_mempool :
    ∀ (ts : List TxnId) (lg : NodeLedgerS) (t : TxnId),
      t ∈ (ts.foldl applyTxnStep lg).mempool ↔ t ∈ lg.mempool ∧ t ∉ ts := by
  intro ts
  induction ts with
  | nil => intro lg t; simp
  | cons x rest ih =>
    intro lg t
    rw [List.foldl_cons, ih]
    simp only [applyTxnStep, mem_setRemove, List.mem_cons]
    tauto

theorem applyTxns_mem_applied :
    ∀ (ts : List TxnId) (lg : NodeLedgerS) (t : TxnId),
      t ∈ (ts.foldl applyTxnStep lg).appliedTransactions
        ↔ t ∈ lg.appliedTransactions ∨ t ∈ ts := by
  intro ts
  induction ts with
  | nil => intro lg t; simp
  | cons x rest ih =>
    intro lg t
    rw [List.foldl_cons, ih]
    simp only [applyTxnStep, mem_setInsert, List.mem_cons]
    tauto

theorem applyTxns_blocks :
    ∀ (ts : List TxnId) (lg : NodeLedgerS), (ts.foldl applyTxnStep lg).blocks = lg.blocks := by
  intro ts
  induction ts with
  | nil => intro lg; rfl
  | cons x rest ih => intro lg; rw [List.foldl_cons, ih]; rfl

theorem applyTxns_known :
    ∀ (ts : List TxnId) (lg : NodeLedgerS),
      (ts.foldl applyTxnStep lg).knownTransactions = lg.knownTransactions := by
  intro ts
  induction ts with
  | nil => intro lg; rfl
  | cons x rest ih => intro lg; rw [List.foldl_cons, ih]; rfl

theorem applyBlocks_spec :
    ∀ (l : List NakBlock) (lg : NodeLedgerS),
      (∀ x ∈ l, x.uncles = []) →
      ∃ lg2, applyBlocks lg l = .ok lg2
        ∧ (∀ t, t ∈ lg2.mempool ↔ t ∈ lg.mempool ∧ t ∉ txnsOf l)
        ∧ (∀ t, t ∈ lg2.appliedTransactions ↔ t ∈ lg.appliedTransactions ∨ t ∈ txnsOf l)
        ∧ lg2.blocks = lg.blocks
        ∧ lg2.knownTransactions = lg.knownTransactions := by
  intro l
  induction l with
  | nil =>
    intro lg _
    exact ⟨lg, rfl, by simp [txnsOf], by simp [txnsOf], rfl, rfl⟩
  | cons b rest ih =>
    intro lg hunc
    have hb : b.uncles = [] := hunc b (List.mem_cons_self _ _)
    obtain ⟨lg2, heq, hmp, hap, hbl, hkn⟩ :=
      ih (b.transactions.foldl applyTxnStep lg) (fun x hx => hunc x (List.mem_cons_of_mem _ hx))
    refine ⟨lg2, ?_, ?_, ?_, ?_, ?_⟩
    · unfold applyBlocks
      rw [List.foldlM_cons, applyBlock_no_uncles hb, bindOk]
      exact heq
    · intro t
      rw [hmp t, applyTxns_mem_mempool]
      rw [show txnsOf (b :: rest) = b.transactions ++ txnsOf rest from rfl]
      simp only [List.mem_append]
      tauto
    · intro t
      rw [hap t, applyTxns_mem_applied]
      rw [show txnsOf (b :: rest) = b.transactions ++ txnsOf rest from rfl]
      simp only [List.mem_append]
      tauto
    · rw [hbl, applyTxns_blocks]
    · rw [hkn, applyTxns_known]

theorem walkBackN_spec {blocks : List (BlockId × NakBlock)} :
    ∀ (k : Nat) (n : NakBlock), chainOk blocks n = true → k < n.height →
      ∃ cb, walkBackN blocks k n = .ok cb ∧ cb ∈ anc blocks n := by
  intro k
  induction k with
  | zero =>
    intro n hwf _
    exact ⟨n, rfl, anc_self_mem hwf⟩
  | succ k ih =>
    intro n hwf hk
    have hg : n.parent ≠ GENESIS_BLOCK := by
      intro hgen
      have := wf_genesis hwf hgen
      omega
    obtain ⟨p, hl, hph, hwfp⟩ := wf_parent hwf hg
    obtain ⟨cb, heq, hmem⟩ := ih p hwfp (by omega)
    refine ⟨cb, ?_, ?_⟩
    · unfold walkBackN
      rw [hl]
      exact heq
    · rw [anc_decomp hwf hg hl hph]
      exact List.mem_cons_of_mem _ hmem

theorem commitFold_ok (known applied : List TxnId) :
    ∀ (ts : List TxnId) (acc : List TxnId),
      (∀ t ∈ ts, known.contains t = true ∧ applied.contains t = true) →
      ∃ r, ts.foldlM
          (fun acc t =>
            if known.contains t then
              if applied.contains t then
                Except.ok (acc ++ [t])
              else
                Except.error LErr.commitNotApplied
            else
              Except.error LErr.unknownCommitTxn)
          acc = .ok r := by
  intro ts
  induction ts with
  | nil => intro acc _; exact ⟨acc, rfl⟩
  | cons x rest ih =>
    intro acc h
    have hx := h x (List.mem_cons_self _ _)
    obtain ⟨r, hr⟩ := ih (acc ++ [x]) (fun t ht => h t (List.mem_cons_of_mem _ ht))
    refine ⟨r, ?_⟩
    rw [List.foldlM_cons, if_pos hx.1, if_pos hx.2, bindOk]
    exact hr

end Simba

namespace Simba

/-- **C2.** After `NakamotoNodeLedger::update_chain_head` reorganizes from old
head `O` to new head `N` (well-formed stored chains, `O` no higher than `N`,
no GHOST uncle references on either chain, a pre-state in which every
transaction of `ancestors(O)` is applied and every transaction of
`ancestors(N)` is known, and no transaction appearing in two distinct blocks
of the two chains), the call succeeds, every transaction in the blocks of
`ancestors(N) \ ancestors(O)` is in `applied_transactions` and not in the
mempool, and every transaction in the blocks of `ancestors(O) \ ancestors(N)`
is in the mempool and not in `applied_transactions`. -/
theorem c2_reorg_txn_partition
    (lg : NodeLedgerS) (O N : NakBlock) (cd : Nat)
    (hwfO : chainOk lg.blocks O = true)
    (hwfN : chainOk lg.blocks N = true)
    (hH : O.height ≤ N.height)
    (huncO : ∀ x ∈ anc lg.blocks O, x.uncles = [])
    (huncN : ∀ x ∈ anc lg.blocks N, x.uncles = [])
    (happlied : ∀ t ∈ txnsOf (anc lg.blocks O), t ∈ lg.appliedTransactions)
    (hknown : ∀ t ∈ txnsOf (anc lg.blocks N), t ∈ lg.knownTransactions)
    (huniq : ∀ x ∈ anc lg.blocks O ++ anc lg.blocks N,
             ∀ y ∈ anc lg.blocks O ++ anc lg.blocks N,
               x.identifier ≠ y.identifier →
               ∀ t ∈ x.transactions, t ∉ y.transactions) :
    ∃ lg2 notes, updateChainHead lg (some O) N cd = .ok (lg2, notes)
      ∧ (∀ t ∈ txnsOf (newOnly lg.blocks O N),
           t ∈ lg2.appliedTransactions ∧ t ∉ lg2.mempool)
      ∧ (∀ t ∈ txnsOf (oldOnly lg.blocks O N),
           t ∈ lg2.mempool ∧ t ∉ lg2.appliedTransactions) := by
  have hO1 : 1 ≤ O.height := wf_height_pos hwfO
  obtain ⟨nh, hwalk, hnhh, hwfnh, hancN, hseg⟩ :=
    walkDownNew_spec lg.blocks (N.height - O.height) N O.height [] (N.height + 1)
      hwfN (by omega) hO1 (by omega)
  rw [List.nil_append] at hwalk
  set seg := (anc lg.blocks N).take (N.height - O.height) with hseg_def
  have hlock := lockstep_spec lg.blocks (N.height + 1) O nh lg seg
    hwfO hwfnh (by omega) (by omega) huncO
  set Do := (anc lg.blocks O).filter
    (fun x => !(idsOf (anc lg.blocks nh)).contains x.identifier) with hDo_def
  set Dn := (anc lg.blocks nh).filter
    (fun x => !(idsOf (anc lg.blocks O)).contains x.identifier) with hDn_def
  set lg1 := Do.foldl (fun acc x => undoTxns acc x.transactions) lg with hlg1_def
  have hsegsub : ∀ x ∈ seg, x ∈ anc lg.blocks N := fun x hx => List.take_subset _ _ hx
  have hsegids : ∀ x ∈ seg, (idsOf (anc lg.blocks O)).contains x.identifier = false := by
    intro x hx
    apply contains_eq_false
    intro hmem
    obtain ⟨y, hy, hyid⟩ := mem_idsOf.mp hmem
    have hye : y = x :=
      eq_of_id_eq (anc_mem_lookup hwfO hy) (anc_mem_lookup hwfN (hsegsub x hx)) hyid
    have h1 := (anc_mem_props O.height O (le_refl _) hwfO y hy).2
    have h2 := hseg x hx
    rw [hye] at h1
    omega
  have hchain2 : newOnly lg.blocks O N = seg ++ Dn := by
    unfold newOnly
    conv_lhs => rw [hancN]
    rw [List.filter_append]
    congr 1
    apply List.filter_eq_self.mpr
    intro a ha
    rw [hsegids a ha]
    rfl
  have hDoEq : oldOnly lg.blocks O N = Do := by
    unfold oldOnly
    rw [hDo_def]
    apply List.filter_congr
    intro x hx
    have hxh := (anc_mem_props O.height O (le_refl _) hwfO x hx).2
    cases hc : (idsOf (anc lg.blocks nh)).contains x.identifier
    · have hnone : x.identifier ∉ idsOf (anc lg.blocks N) := by
        intro hmem
        obtain ⟨y, hy, hyid⟩ := mem_idsOf.mp hmem
        rw [hancN] at hy
        rcases List.mem_append.mp hy with hy | hy
        · have hye : y = x :=
            eq_of_id_eq (anc_mem_lookup hwfN (hsegsub y hy)) (anc_mem_lookup hwfO hx) hyid
          have h2 := hseg y hy
          rw [hye] at h2
          omega
        · have hm2 : x.identifier ∈ idsOf (anc lg.blocks nh) := mem_idsOf.mpr ⟨y, hy, hyid⟩
          rw [← contains_iff_mem, hc] at hm2
          cases hm2
      rw [contains_eq_false hnone]
    · have hmem : x.identifier ∈ idsOf (anc lg.blocks nh) := contains_iff_mem.mp hc
      have hmem2 : x.identifier ∈ idsOf (anc lg.blocks N) := by
        rw [hancN]
        obtain ⟨y, hy, hyid⟩ := mem_idsOf.mp hmem
        exact mem_idsOf.mpr ⟨y, List.mem_append.mpr (Or.inr hy), hyid⟩
      rw [contains_iff_mem.mpr hmem2]
  have hDnsub : ∀ x ∈ Dn, x ∈ anc lg.blocks N := by
    intro x hx
    have := (List.mem_filter.mp hx).1
    rw [hancN]
    exact List.mem_append.mpr (Or.inr this)
  have hunc2 : ∀ x ∈ (seg ++ Dn).reverse, x.uncles = [] := by
    intro x hx
    rw [List.mem_reverse] at hx
    rcases List.mem_append.mp hx with hx | hx
    · exact huncN x (hsegsub x hx)
    · exact huncN x (hDnsub x hx)
  obtain ⟨lg2, happlyEq, hmp2, hap2, hbl2, hkn2⟩ :=
    applyBlocks_spec ((seg ++ Dn).reverse) lg1 hunc2
  have htxrev : ∀ t, t ∈ txnsOf ((seg ++ Dn).reverse) ↔ t ∈ txnsOf (seg ++ Dn) := by
    intro t
    rw [mem_txnsOf, mem_txnsOf]
    constructor
    · rintro ⟨b, hb, ht⟩
      exact ⟨b, List.mem_reverse.mp hb, ht⟩
    · rintro ⟨b, hb, ht⟩
      exact ⟨b, List.mem_reverse.mpr hb, ht⟩
  have e2 : ∀ t, t ∈ txnsOf ((seg ++ Dn).reverse) ↔ t ∈ txnsOf (newOnly lg.blocks O N) := by
    intro t
    rw [hchain2]
    exact htxrev t
  have e1m : ∀ t, t ∈ lg1.mempool
      ↔ t ∈ lg.mempool ∨ t ∈ txnsOf (oldOnly lg.blocks O N) := by
    intro t
    rw [hDoEq, hlg1_def]
    exact undoFold_mem_mempool _ _ t
  have e1a : ∀ t, t ∈ lg1.appliedTransactions
      ↔ t ∈ lg.appliedTransactions ∧ t ∉ txnsOf (oldOnly lg.blocks O N) := by
    intro t
    rw [hDoEq, hlg1_def]
    exact undoFold_mem_applied _ _ t
  have hmem_applied2 : ∀ t, t ∈ lg2.appliedTransactions
      ↔ (t ∈ lg.appliedTransactions ∧ t ∉ txnsOf (oldOnly lg.blocks O N))
        ∨ t ∈ txnsOf (newOnly lg.blocks O N) := by
    intro t
    have h0 := hap2 t
    have h1 := e1a t
    have h2 := e2 t
    tauto
  have hmem_mempool2 : ∀ t, t ∈ lg2.mempool
      ↔ (t ∈ lg.mempool ∨ t ∈ txnsOf (oldOnly lg.blocks O N))
        ∧ t ∉ txnsOf (newOnly lg.blocks O N) := by
    intro t
    have h0 := hmp2 t
    have h1 := e1m t
    have h2 := e2 t
    tauto
  have hblocks2 : lg2.blocks = lg.blocks := by
    rw [hbl2, hlg1_def, undoFold_blocks]
  have hknown2 : lg2.knownTransactions = lg.knownTransactions := by
    rw [hkn2, hlg1_def, undoFold_known]
  have hdisj : ∀ t, t ∈ txnsOf (oldOnly lg.blocks O N)
      → t ∉ txnsOf (newOnly lg.blocks O N) := by
    intro t hto htn
    obtain ⟨y, hy, hty⟩ := mem_txnsOf.mp hto
    obtain ⟨z, hz, htz⟩ := mem_txnsOf.mp htn
    have hyanc := (List.mem_filter.mp hy).1
    have hypred := (List.mem_filter.mp hy).2
    have hzanc := (List.mem_filter.mp hz).1
    have hyid : y.identifier ≠ z.identifier := by
      intro he
      have hmm : y.identifier ∈ idsOf (anc lg.blocks N) := by
        rw [he]
        exact mem_idsOf.mpr ⟨z, hzanc, rfl⟩
      have hcm := contains_iff_mem.mpr hmm
      simp [hcm] at hypred
      exact hypred hmm
    exact huniq y (List.mem_append.mpr (Or.inl hyanc))
      z (List.mem_append.mpr (Or.inr hzanc)) hyid t hty htz
  have hcommit : ∃ notes, commitPhase lg2 O N cd = .ok notes := by
    unfold commitPhase
    by_cases hcond : O.height < N.height ∧ cd < N.height
    · rw [if_pos hcond, hblocks2]
      obtain ⟨cb, hcb, hcbmem⟩ := walkBackN_spec cd N hwfN hcond.2
      rw [hcb, bindOk]
      apply commitFold_ok
      intro t ht
      constructor
      · rw [hknown2]
        exact contains_iff_mem.mpr (hknown t (mem_txnsOf.mpr ⟨cb, hcbmem, ht⟩))
      · apply contains_iff_mem.mpr
        rw [hmem_applied2 t]
        by_cases hcid : cb.identifier ∈ idsOf (anc lg.blocks O)
        · obtain ⟨y, hy, hyid⟩ := mem_idsOf.mp hcid
          have hye : y = cb :=
            eq_of_id_eq (anc_mem_lookup hwfO hy) (anc_mem_lookup hwfN hcbmem) hyid
          left
          constructor
          · apply happlied
            apply mem_txnsOf.mpr
            exact ⟨y, hy, by rw [hye]; exact ht⟩
          · intro htu
            obtain ⟨z, hz, htz⟩ := mem_txnsOf.mp htu
            have hzanc := (List.mem_filter.mp hz).1
            have hzpred := (List.mem_filter.mp hz).2
            have hzid : z.identifier ≠ cb.identifier := by
              intro he
              have hmm : z.identifier ∈ idsOf (anc lg.blocks N) := by
                rw [he]
                exact mem_idsOf.mpr ⟨cb, hcbmem, rfl⟩
              have hcm := contains_iff_mem.mpr hmm
              simp [hcm] at hzpred
              exact hzpred hmm
            have hcbO : cb ∈ anc lg.blocks O := by
              rw [← hye]
              exact hy
            exact huniq z (List.mem_append.mpr (Or.inl hzanc))
              cb (List.mem_append.mpr (Or.inl hcbO)) hzid t htz ht
        · right
          apply mem_txnsOf.mpr
          refine ⟨cb, ?_, ht⟩
          unfold newOnly
          apply List.mem_filter.mpr
          refine ⟨hcbmem, ?_⟩
          show (!(idsOf (anc lg.blocks O)).contains cb.identifier) = true
          rw [contains_eq_false hcid]
          rfl
    · rw [if_neg hcond]
      exact ⟨[], rfl⟩
  obtain ⟨notes, hnotes⟩ := hcommit
  refine ⟨lg2, notes, ?_, ?_, ?_⟩
  · simp only [updateChainHead]
    rw [if_neg (by omega)]
    simp only [hwalk, bindOk, hlock, happlyEq, hnotes]
  · intro t ht
    constructor
    · exact (hmem_applied2 t).mpr (Or.inr ht)
    · intro hmp
      exact ((hmem_mempool2 t).mp hmp).2 ht
  · intro t ht
    constructor
    · exact (hmem_mempool2 t).mpr ⟨Or.inr ht, hdisj t ht⟩
    · intro hap
      rcases (hmem_applied2 t).mp hap with ⟨_, hnot⟩ | hnew
      · exact hnot ht
      · exact hdisj t ht hnew

end Simba

namespace Simba

/-- Two competing height-1 blocks and a height-2 extension of the loser,
each carrying one distinct transaction. -/
def c2A : NakBlock :=
  { identifier := 1, parent := GENESIS_BLOCK, uncles := [], height := 1,
    transactions := [101] }

def c2B : NakBlock :=
  { identifier := 2, parent := GENESIS_BLOCK, uncles := [], height := 1,
    transactions := [102] }

def c2C : NakBlock :=
  { identifier := 3, parent := 2, uncles := [], height := 2,
    transactions := [103] }

def c2Lg : NodeLedgerS :=
  { blocks := [(1, c2A), (2, c2B), (3, c2C)], forks := [(1, 1), (3, 2)],
    longestChain := (1, 1), markedAsUncle := [],
    appliedTransactions := [101], mempool := [102, 103],
    knownTransactions := [101, 102, 103] }

theorem c2_witness :
    ∃ lg2 notes, updateChainHead c2Lg (some c2A) c2C 10 = .ok (lg2, notes)
      ∧ (∀ t ∈ txnsOf (newOnly c2Lg.blocks c2A c2C),
           t ∈ lg2.appliedTransactions ∧ t ∉ lg2.mempool)
      ∧ (∀ t ∈ txnsOf (oldOnly c2Lg.blocks c2A c2C),
           t ∈ lg2.mempool ∧ t ∉ lg2.appliedTransactions) :=
  c2_reorg_txn_partition c2Lg c2A c2C 10 (by decide) (by decide) (by decide)
    (by decide) (by decide) (by decide) (by decide) (by decide)

end Simba
